import Mathlib

/-!
Verification model of the docslurp indexing pipeline.

Strings from the source program are modelled as `List Char`; the JavaScript
primitives used by the code (`toLowerCase`, `trim`, `slice`, `lastIndexOf`,
the WHATWG `URL` parser restricted to `scheme://host...` URLs, and
`URLSearchParams`) are given executable definitions below.  Persistent SQLite
state is modelled as an explicit record of table contents; floating point
embedding components are modelled as exact rationals (the claims under study
do not depend on rounding).
-/

namespace Docslurp

/-! ### Character helpers (JS `toLowerCase` on the ASCII range) -/

theorem char_toNat_ofNat_valid (n : Nat) (h : n.isValidChar) :
    (Char.ofNat n).toNat = n := by
  rw [Char.ofNat, dif_pos h]
  simp [Char.ofNatAux, Char.toNat, UInt32.toNat]

theorem char_eq_of_toNat_eq {a b : Char} (h : a.toNat = b.toNat) : a = b :=
  Char.eq_of_val_eq (UInt32.eq_of_toBitVec_eq (BitVec.eq_of_toNat_eq h))

theorem toNat_toLower (c : Char) :
    (Char.toLower c).toNat =
      if 65 ≤ c.toNat ∧ c.toNat ≤ 90 then c.toNat + 32 else c.toNat := by
  rw [Char.toLower]
  split
  · exact char_toNat_ofNat_valid _ (Or.inl (by omega))
  · rfl

theorem toLower_toLower (c : Char) : Char.toLower (Char.toLower c) = Char.toLower c := by
  apply char_eq_of_toNat_eq
  simp only [toNat_toLower]
  split_ifs <;> omega

/-- Lowercasing does not change a character whose code is outside the ASCII
uppercase range. -/
theorem toLower_eq_self_of_not_upper {c : Char}
    (h : ¬(65 ≤ c.toNat ∧ c.toNat ≤ 90)) : Char.toLower c = c := by
  apply char_eq_of_toNat_eq
  rw [toNat_toLower, if_neg h]

/-- Scheme characters: ASCII letters (the model accepts letter-only schemes). -/
def isSchemeChar (c : Char) : Bool :=
  decide ((65 ≤ c.toNat ∧ c.toNat ≤ 90) ∨ (97 ≤ c.toNat ∧ c.toNat ≤ 122))

/-- Host characters: letters, digits, dot, dash, underscore, and colon (port). -/
def isHostChar (c : Char) : Bool :=
  isSchemeChar c || decide (48 ≤ c.toNat ∧ c.toNat ≤ 57) ||
    decide (c = '.' ∨ c = '-' ∨ c = '_' ∨ c = ':')

theorem isSchemeChar_toLower (c : Char) : isSchemeChar (Char.toLower c) = isSchemeChar c := by
  simp only [isSchemeChar, toNat_toLower]
  by_cases h : 65 ≤ c.toNat ∧ c.toNat ≤ 90
  · rw [if_pos h]
    simp only [decide_eq_decide]
    omega
  · rw [if_neg h]

theorem toLower_eq_of_lower {c d : Char} (hd : ¬(97 ≤ d.toNat ∧ d.toNat ≤ 122))
    (h : Char.toLower c = d) : c = d := by
  by_cases hc : 65 ≤ c.toNat ∧ c.toNat ≤ 90
  · exfalso
    have h2 := congrArg Char.toNat h
    rw [toNat_toLower, if_pos hc] at h2
    omega
  · rwa [toLower_eq_self_of_not_upper hc] at h

/-- For a target character that is neither ASCII uppercase nor ASCII lowercase,
`toLower c = d` holds exactly when `c = d`. -/
theorem toLower_eq_iff_special {c d : Char} (hd1 : ¬(65 ≤ d.toNat ∧ d.toNat ≤ 90))
    (hd2 : ¬(97 ≤ d.toNat ∧ d.toNat ≤ 122)) : Char.toLower c = d ↔ c = d := by
  constructor
  · exact toLower_eq_of_lower hd2
  · intro h
    subst h
    exact toLower_eq_self_of_not_upper hd1

theorem isHostChar_toLower (c : Char) : isHostChar (Char.toLower c) = isHostChar c := by
  by_cases h : 65 ≤ c.toNat ∧ c.toNat ≤ 90
  · have h1 : (Char.toLower c).toNat = c.toNat + 32 := by
      rw [toNat_toLower, if_pos h]
    simp only [isHostChar, isSchemeChar_toLower]
    have hdig : decide (48 ≤ (Char.toLower c).toNat ∧ (Char.toLower c).toNat ≤ 57) =
        decide (48 ≤ c.toNat ∧ c.toNat ≤ 57) := by
      simp only [decide_eq_decide]
      omega
    have hpunct : decide (Char.toLower c = '.' ∨ Char.toLower c = '-' ∨
        Char.toLower c = '_' ∨ Char.toLower c = ':') =
        decide (c = '.' ∨ c = '-' ∨ c = '_' ∨ c = ':') := by
      simp only [decide_eq_decide]
      exact or_congr (toLower_eq_iff_special (by decide) (by decide))
        (or_congr (toLower_eq_iff_special (by decide) (by decide))
          (or_congr (toLower_eq_iff_special (by decide) (by decide))
            (toLower_eq_iff_special (by decide) (by decide))))
    rw [hdig, hpunct]
  · rw [toLower_eq_self_of_not_upper h]

/-! ### String primitives used by the source -/

/-- Model of the regex replacement `replace(/\/+$/, "")`: remove every
trailing `/` character. -/
def stripTrailingSlashes : List Char → List Char
  | [] => []
  | c :: t =>
    match stripTrailingSlashes t with
    | [] => if c = '/' then [] else [c]
    | r => c :: r

theorem stripTrailingSlashes_cons (c : Char) (t : List Char) :
    stripTrailingSlashes (c :: t) = [] ∨
      ∃ r, stripTrailingSlashes (c :: t) = c :: r := by
  rw [stripTrailingSlashes]
  cases stripTrailingSlashes t with
  | nil =>
    by_cases h : c = '/'
    · rw [if_pos h]
      exact Or.inl rfl
    · rw [if_neg h]
      exact Or.inr ⟨[], rfl⟩
  | cons a r => exact Or.inr ⟨a :: r, rfl⟩

theorem getLast?_stripTrailingSlashes (l : List Char) :
    (stripTrailingSlashes l).getLast? ≠ some '/' := by
  induction l with
  | nil => simp [stripTrailingSlashes]
  | cons c t ih =>
    rw [stripTrailingSlashes]
    cases h : stripTrailingSlashes t with
    | nil =>
      by_cases hc : c = '/'
      · simp [hc]
      · simp [hc]
    | cons a r =>
      rw [h] at ih
      rw [List.getLast?_cons]
      cases hr : (a :: r).getLast? with
      | none => simp at hr
      | some b =>
        rw [hr] at ih
        simpa [hr] using ih

theorem stripTrailingSlashes_of_getLast? {l : List Char}
    (h : l.getLast? ≠ some '/') : stripTrailingSlashes l = l := by
  induction l with
  | nil => rfl
  | cons c t ih =>
    cases t with
    | nil =>
      have hc : c ≠ '/' := by
        intro hc
        exact h (by simp [hc])
      simp [stripTrailingSlashes, hc]
    | cons a r =>
      have ht : (a :: r).getLast? ≠ some '/' := by
        rw [List.getLast?_cons] at h
        intro hh
        rw [hh] at h
        simp at h
      rw [stripTrailingSlashes, ih ht]

theorem stripTrailingSlashes_idem (l : List Char) :
    stripTrailingSlashes (stripTrailingSlashes l) = stripTrailingSlashes l :=
  stripTrailingSlashes_of_getLast? (getLast?_stripTrailingSlashes l)

theorem stripTrailingSlashes_sublist (l : List Char) :
    (stripTrailingSlashes l).Sublist l := by
  induction l with
  | nil => simp [stripTrailingSlashes]
  | cons c t ih =>
    rw [stripTrailingSlashes]
    cases h : stripTrailingSlashes t with
    | nil =>
      by_cases hc : c = '/'
      · simp [hc]
      · rw [if_neg hc]
        exact (List.nil_sublist t).cons₂ c
    | cons a r =>
      rw [h] at ih
      exact ih.cons₂ c

theorem length_stripTrailingSlashes_le (l : List Char) :
    (stripTrailingSlashes l).length ≤ l.length :=
  (stripTrailingSlashes_sublist l).length_le

/-- JS whitespace characters recognized by `trim` (ASCII fragment). -/
def isWsChar (c : Char) : Bool :=
  decide (c.toNat = 32 ∨ c.toNat = 9 ∨ c.toNat = 10 ∨ c.toNat = 13 ∨
    c.toNat = 11 ∨ c.toNat = 12)

/-- Remove trailing whitespace. -/
def trimRight : List Char → List Char
  | [] => []
  | c :: t =>
    match trimRight t with
    | [] => if isWsChar c then [] else [c]
    | r => c :: r

theorem length_trimRight_le (l : List Char) : (trimRight l).length ≤ l.length := by
  induction l with
  | nil => simp [trimRight]
  | cons c t ih =>
    rw [trimRight]
    cases h : trimRight t with
    | nil =>
      by_cases hc : isWsChar c
      · simp [hc]
      · simp [hc]
    | cons a r =>
      rw [h] at ih
      simp only [List.length_cons]
      exact Nat.succ_le_succ ih

/-- Model of JS `String.prototype.trim`. -/
def trimChars (l : List Char) : List Char :=
  trimRight (l.dropWhile isWsChar)

theorem length_trimChars_le (l : List Char) : (trimChars l).length ≤ l.length :=
  (length_trimRight_le _).trans (l.dropWhile_sublist isWsChar).length_le

/-- Model of JS `String.prototype.slice(start, stop)` for `0 ≤ start ≤ stop`
(the stop index is clamped to the length, as in JS). -/
def sliceChars (l : List Char) (start stop : Nat) : List Char :=
  (l.drop start).take (stop - start)

theorem length_sliceChars_le (l : List Char) (start stop : Nat) :
    (sliceChars l start stop).length ≤ stop - start := by
  simp [sliceChars]

/-- Model of JS `String.prototype.lastIndexOf(c, pos)` for a one-character
needle: the largest index `i ≤ pos` holding `c`, or `-1`. -/
def lastIndexOf (l : List Char) (c : Char) (pos : Nat) : Int :=
  match (l.take (pos + 1)).reverse.findIdx? (· = c) with
  | some j => ((l.take (pos + 1)).length - 1 - j : Nat)
  | none => -1

theorem lastIndexOf_le (l : List Char) (c : Char) (pos : Nat) :
    lastIndexOf l c pos ≤ (pos : Int) := by
  rw [lastIndexOf]
  cases h : (l.take (pos + 1)).reverse.findIdx? (· = c) with
  | none =>
    simp only []
    omega
  | some j =>
    have hlen : (l.take (pos + 1)).length ≤ pos + 1 := List.length_take_le _ _
    simp only []
    have hle : ((l.take (pos + 1)).length - 1 - j : Nat) ≤ pos := by omega
    exact_mod_cast hle

/-! ### URL model

The source calls the WHATWG `URL` parser.  The model parses
`scheme://host[/path][?query][#fragment]` URLs into components; inputs outside
this shape are treated as unparsable and take the fallback branch of
`normalizeUrl`, exactly as a `new URL(...)` exception does in the source.
Percent-encoding normalization is abstracted away. -/

def splitSep (sep : Char) : List Char → List (List Char)
  | [] => [[]]
  | c :: t =>
    match splitSep sep t with
    | [] => [[c]]
    | h :: r => if c = sep then [] :: h :: r else (c :: h) :: r

def joinSep (sep : Char) : List (List Char) → List Char
  | [] => []
  | [x] => x
  | x :: y :: r => x ++ sep :: joinSep sep (y :: r)

/-- Model of `URLSearchParams` parsing: split on `&`, drop empty segments,
split each segment at its first `=` (missing `=` gives an empty value). -/
def parseQuery (q : List Char) : List (List Char × List Char) :=
  ((splitSep '&' q).filter (fun s => !s.isEmpty)).map fun chunk =>
    (chunk.takeWhile (fun c => !decide (c = '=')),
     (chunk.dropWhile (fun c => !decide (c = '='))).drop 1)

def renderKV (kv : List Char × List Char) : List Char := kv.1 ++ '=' :: kv.2

/-- Model of `URLSearchParams` serialization (each pair rendered `key=value`);
an empty list yields no `?` at all, as in the WHATWG update steps. -/
def serializeQuery (params : List (List Char × List Char)) : List Char :=
  match params with
  | [] => []
  | _ => '?' :: joinSep '&' (params.map renderKV)

def serializeFrag : Option (List Char) → List Char
  | none => []
  | some f => '#' :: f

structure UrlParts where
  scheme : List Char
  host : List Char
  pathname : List Char
  params : List (List Char × List Char)
  fragment : Option (List Char)
deriving DecidableEq, Repr

def notHostEnd (c : Char) : Bool :=
  !decide (c = '/') && !decide (c = '?') && !decide (c = '#')

def notPathEnd (c : Char) : Bool :=
  !decide (c = '?') && !decide (c = '#')

/-- Model of `new URL(u)` restricted to `scheme://...` URLs.  The WHATWG
parser lowercases the scheme and yields pathname `/` for an absent path. -/
def notHash (c : Char) : Bool := !decide (c = '#')

/-- Fragment extraction from the tail following the query section. -/
def fragOf (rest : List Char) : Option (List Char) :=
  match rest.dropWhile notHash with
  | [] => none
  | c :: f => if c = '#' then some f else none

def parseUrl (u : List Char) : Option UrlParts :=
  let scheme := u.takeWhile isSchemeChar
  if scheme.isEmpty then none else
  match u.dropWhile isSchemeChar with
  | c0 :: c1 :: c2 :: rest2 =>
    if c0 = ':' ∧ c1 = '/' ∧ c2 = '/' then
      let host := rest2.takeWhile notHostEnd
      if host.isEmpty then none
      else if !host.all isHostChar then none
      else
        let rest3 := rest2.dropWhile notHostEnd
        let path0 := rest3.takeWhile notPathEnd
        let pathname := if path0.isEmpty then ['/'] else path0
        match rest3.dropWhile notPathEnd with
        | [] => some ⟨scheme.map Char.toLower, host, pathname, [], none⟩
        | c3 :: rest4 =>
          if c3 = '?' then
            some ⟨scheme.map Char.toLower, host, pathname,
              parseQuery (rest4.takeWhile notHash), fragOf rest4⟩
          else if c3 = '#' then
            some ⟨scheme.map Char.toLower, host, pathname, [], some rest4⟩
          else none
    else none
  | _ => none

/-- Model of `URL.prototype.toString`. -/
def serializeUrl (p : UrlParts) : List Char :=
  p.scheme ++ ':' :: '/' :: '/' ::
    (p.host ++ (p.pathname ++ (serializeQuery p.params ++ serializeFrag p.fragment)))

def isUtmKey (k : List Char) : Bool :=
  decide (k = "utm_source".toList ∨ k = "utm_medium".toList ∨ k = "utm_campaign".toList)

/-- Component transformation applied by `normalizeUrl` to a parsed URL:
lowercase the hostname, strip trailing slashes from the pathname (an emptied
pathname becomes `/`), and delete the three `utm_*` tracking parameters. -/
def normParts (p : UrlParts) : UrlParts :=
  ⟨p.scheme, p.host.map Char.toLower,
    (if (stripTrailingSlashes p.pathname).isEmpty then ['/']
     else stripTrailingSlashes p.pathname),
    p.params.filter (fun kv => !isUtmKey kv.1), p.fragment⟩

/-- Model of `normalizeUrl` from the store utilities: parse; lowercase the
hostname; strip trailing slashes from the pathname (empty result becomes
`/`); delete the three `utm_*` tracking parameters; re-serialize.  On parse
failure, fall back to lowercasing and stripping trailing slashes. -/
def normalizeUrlChars (u : List Char) : List Char :=
  match parseUrl u with
  | some p => serializeUrl (normParts p)
  | none => stripTrailingSlashes (u.map Char.toLower)

/-- String-level wrapper of `normalizeUrlChars`. -/
def normalizeUrl (s : String) : String := ⟨normalizeUrlChars s.toList⟩

/-! ### takeWhile and dropWhile utilities -/

theorem takeWhile_append_all {p : Char → Bool} {a : List Char} (b : List Char)
    (h : a.all p = true) : (a ++ b).takeWhile p = a ++ b.takeWhile p := by
  induction a with
  | nil => simp
  | cons c t ih =>
    simp only [List.all_cons, Bool.and_eq_true] at h
    simp only [List.cons_append, List.takeWhile_cons, h.1, if_true]
    rw [ih h.2]

theorem dropWhile_append_all {p : Char → Bool} {a : List Char} (b : List Char)
    (h : a.all p = true) : (a ++ b).dropWhile p = b.dropWhile p := by
  induction a with
  | nil => simp
  | cons c t ih =>
    simp only [List.all_cons, Bool.and_eq_true] at h
    simp only [List.cons_append, List.dropWhile_cons, h.1, if_true]
    exact ih h.2

theorem takeWhile_cons_neg {p : Char → Bool} {c : Char} (t : List Char)
    (h : p c = false) : (c :: t).takeWhile p = [] := by
  simp [List.takeWhile_cons, h]

theorem dropWhile_cons_neg {p : Char → Bool} {c : Char} (t : List Char)
    (h : p c = false) : (c :: t).dropWhile p = c :: t := by
  simp [List.dropWhile_cons, h]

theorem takeWhile_all_self {p : Char → Bool} {a : List Char}
    (h : a.all p = true) : a.takeWhile p = a :=
  List.takeWhile_eq_self_iff.mpr (List.all_eq_true.mp h)

theorem dropWhile_all_self {p : Char → Bool} {a : List Char}
    (h : a.all p = true) : a.dropWhile p = [] := by
  have := dropWhile_append_all (p := p) [] h
  simpa using this

/-! ### splitSep and joinSep roundtrip -/

theorem splitSep_ne_nil (sep : Char) (l : List Char) : splitSep sep l ≠ [] := by
  cases l with
  | nil => simp [splitSep]
  | cons c t =>
    rw [splitSep]
    cases splitSep sep t with
    | nil => simp
    | cons h r =>
      by_cases hc : c = sep
      · simp [hc]
      · simp [hc]

theorem splitSep_no_sep {sep : Char} {l : List Char}
    (h : l.all (fun c => !decide (c = sep)) = true) : splitSep sep l = [l] := by
  induction l with
  | nil => rfl
  | cons c t ih =>
    simp only [List.all_cons, Bool.and_eq_true, Bool.not_eq_true', decide_eq_false_iff_not] at h
    rw [splitSep, ih (by simpa [List.all_eq_true] using h.2)]
    simp [h.1]

theorem splitSep_append_sep {sep : Char} {x : List Char} (rest : List Char)
    (h : x.all (fun c => !decide (c = sep)) = true) :
    splitSep sep (x ++ sep :: rest) = x :: splitSep sep rest := by
  induction x with
  | nil =>
    simp only [List.nil_append]
    rw [splitSep]
    cases hr : splitSep sep rest with
    | nil => exact absurd hr (splitSep_ne_nil sep rest)
    | cons a r => simp
  | cons c t ih =>
    simp only [List.all_cons, Bool.and_eq_true, Bool.not_eq_true', decide_eq_false_iff_not] at h
    simp only [List.cons_append]
    rw [splitSep, ih (by simpa [List.all_eq_true] using h.2)]
    simp [h.1]

theorem splitSep_joinSep {sep : Char} {chunks : List (List Char)}
    (hne : chunks ≠ [])
    (h : ∀ ch ∈ chunks, ch.all (fun c => !decide (c = sep)) = true) :
    splitSep sep (joinSep sep chunks) = chunks := by
  induction chunks with
  | nil => exact absurd rfl hne
  | cons x r ih =>
    cases r with
    | nil =>
      rw [joinSep]
      exact splitSep_no_sep (h x (by simp))
    | cons y r2 =>
      rw [joinSep, splitSep_append_sep _ (h x (by simp))]
      rw [ih (by simp) (fun ch hch => h ch (List.mem_cons_of_mem x hch))]

theorem mem_joinSep {sep : Char} {chunks : List (List Char)} {c : Char}
    (hc : c ∈ joinSep sep chunks) : c = sep ∨ ∃ ch ∈ chunks, c ∈ ch := by
  induction chunks with
  | nil => simp [joinSep] at hc
  | cons x r ih =>
    cases r with
    | nil =>
      rw [joinSep] at hc
      exact Or.inr ⟨x, by simp, hc⟩
    | cons y r2 =>
      rw [joinSep] at hc
      rcases List.mem_append.mp hc with hx | hrest
      · exact Or.inr ⟨x, by simp, hx⟩
      · rcases List.mem_cons.mp hrest with hsep | htail
        · exact Or.inl hsep
        · rcases ih htail with hs | ⟨ch, hch, hcch⟩
          · exact Or.inl hs
          · exact Or.inr ⟨ch, List.mem_cons_of_mem x hch, hcch⟩

/-! ### Query parameter roundtrip -/

/-- Characters of a key/value pair produced by parsing a query section:
no separator, no hash, and keys additionally contain no `=`. -/
def goodKV (kv : List Char × List Char) : Bool :=
  kv.1.all (fun c => !decide (c = '&') && !decide (c = '#') && !decide (c = '=')) &&
    kv.2.all (fun c => !decide (c = '&') && !decide (c = '#'))

theorem renderKV_no_amp {kv : List Char × List Char} (h : goodKV kv = true) :
    (renderKV kv).all (fun c => !decide (c = '&')) = true := by
  simp only [goodKV, Bool.and_eq_true, List.all_eq_true] at h
  simp only [renderKV, List.all_eq_true]
  intro c hc
  rcases List.mem_append.mp hc with h1 | h2
  · exact (h.1 c h1).1.1
  · rcases List.mem_cons.mp h2 with he | hv
    · subst he
      decide
    · exact (h.2 c hv).1

theorem renderKV_no_hash {kv : List Char × List Char} (h : goodKV kv = true) :
    (renderKV kv).all notHash = true := by
  simp only [goodKV, Bool.and_eq_true, List.all_eq_true] at h
  simp only [renderKV, List.all_eq_true, notHash]
  intro c hc
  rcases List.mem_append.mp hc with h1 | h2
  · exact (h.1 c h1).1.2
  · rcases List.mem_cons.mp h2 with he | hv
    · subst he
      decide
    · exact (h.2 c hv).2

theorem parseQuery_renderKV {kv : List Char × List Char} (h : goodKV kv = true) :
    ((renderKV kv).takeWhile (fun c => !decide (c = '=')),
      ((renderKV kv).dropWhile (fun c => !decide (c = '='))).drop 1) = kv := by
  simp only [goodKV, Bool.and_eq_true] at h
  have hkey : kv.1.all (fun c => !decide (c = '=')) = true := by
    rw [List.all_eq_true] at h ⊢
    intro c hc
    exact ((Bool.and_eq_true _ _).mp (h.1 c hc)).2
  rw [renderKV]
  rw [takeWhile_append_all _ hkey, takeWhile_cons_neg _ (by decide), List.append_nil]
  rw [dropWhile_append_all _ hkey, dropWhile_cons_neg _ (by decide), List.drop_one,
    List.tail_cons]

theorem parseQuery_joinSep {params : List (List Char × List Char)}
    (hne : params ≠ []) (h : params.all goodKV = true) :
    parseQuery (joinSep '&' (params.map renderKV)) = params := by
  rw [List.all_eq_true] at h
  rw [parseQuery, splitSep_joinSep (by simpa using hne)
    (by
      intro ch hch
      rcases List.mem_map.mp hch with ⟨kv, hkv, hr⟩
      rw [← hr]
      exact renderKV_no_amp (h kv hkv))]
  rw [List.filter_eq_self.mpr
    (by
      intro ch hch
      rcases List.mem_map.mp hch with ⟨kv, hkv, hr⟩
      rw [← hr]
      simp [renderKV])]
  rw [List.map_map]
  have : ∀ kv ∈ params,
      ((renderKV kv).takeWhile (fun c => !decide (c = '=')),
        ((renderKV kv).dropWhile (fun c => !decide (c = '='))).drop 1) = kv :=
    fun kv hkv => parseQuery_renderKV (h kv hkv)
  calc params.map _ = params.map id := List.map_congr_left (fun kv hkv => this kv hkv)
    _ = params := List.map_id params

/-! ### Well-formed URL parts: the shape of every parse result -/

theorem splitSep_all_no_sep (sep : Char) (l : List Char) :
    ∀ ch ∈ splitSep sep l, ch.all (fun c => !decide (c = sep)) = true := by
  induction l with
  | nil =>
    intro ch hch
    simp only [splitSep, List.mem_singleton] at hch
    simp [hch]
  | cons c t ih =>
    intro ch hch
    cases hs : splitSep sep t with
    | nil => exact absurd hs (splitSep_ne_nil sep t)
    | cons h r =>
      simp only [splitSep, hs] at hch
      by_cases hc : c = sep
      · rw [if_pos hc] at hch
        rcases List.mem_cons.mp hch with h1 | h2
        · simp [h1]
        · exact ih ch (hs ▸ h2)
      · rw [if_neg hc] at hch
        rcases List.mem_cons.mp hch with h1 | h2
        · subst h1
          have hh := ih h (hs ▸ List.mem_cons_self h r)
          simp only [List.all_cons, Bool.and_eq_true]
          exact ⟨by simpa using hc, hh⟩
        · exact ih ch (hs ▸ List.mem_cons_of_mem h h2)

theorem mem_of_mem_splitSep {sep : Char} {l ch : List Char} {c : Char}
    (hch : ch ∈ splitSep sep l) (hc : c ∈ ch) : c ∈ l := by
  induction l generalizing ch with
  | nil =>
    simp only [splitSep, List.mem_singleton] at hch
    subst hch
    simp at hc
  | cons d t ih =>
    cases hs : splitSep sep t with
    | nil => exact absurd hs (splitSep_ne_nil sep t)
    | cons h r =>
      simp only [splitSep, hs] at hch
      by_cases hd : d = sep
      · rw [if_pos hd] at hch
        rcases List.mem_cons.mp hch with h1 | h2
        · subst h1
          simp at hc
        · exact List.mem_cons_of_mem d (ih (hs ▸ h2) hc)
      · rw [if_neg hd] at hch
        rcases List.mem_cons.mp hch with h1 | h2
        · subst h1
          rcases List.mem_cons.mp hc with h3 | h4
          · exact h3 ▸ List.mem_cons_self d t
          · exact List.mem_cons_of_mem d (ih (hs ▸ List.mem_cons_self h r) h4)
        · exact List.mem_cons_of_mem d (ih (hs ▸ List.mem_cons_of_mem h h2) hc)

/-- Every pair produced by parsing a hash-free query section is `goodKV`. -/
theorem parseQuery_wf {q : List Char} (hq : q.all notHash = true) :
    (parseQuery q).all goodKV = true := by
  rw [List.all_eq_true]
  intro kv hkv
  rw [parseQuery, List.mem_map] at hkv
  obtain ⟨chunk, hchunk, hkveq⟩ := hkv
  have hchunk2 := List.mem_of_mem_filter hchunk
  have hnoamp := splitSep_all_no_sep '&' q chunk hchunk2
  rw [List.all_eq_true] at hnoamp
  rw [List.all_eq_true] at hq
  have hchunkmem : ∀ c ∈ chunk, c ∈ q := fun c hc => mem_of_mem_splitSep hchunk2 hc
  subst hkveq
  simp only [goodKV, Bool.and_eq_true, List.all_eq_true]
  constructor
  · intro c hc
    have hcchunk : c ∈ chunk := (chunk.takeWhile_sublist _).subset hc
    refine ⟨⟨hnoamp c hcchunk, ?_⟩, ?_⟩
    · simpa [notHash] using hq c (hchunkmem c hcchunk)
    · have := List.all_takeWhile (p := fun c => !decide (c = '=')) (l := chunk)
      rw [List.all_eq_true] at this
      exact this c hc
  · intro c hc
    have hcchunk : c ∈ chunk :=
      (chunk.dropWhile_sublist _).subset ((List.drop_sublist 1 _).subset hc)
    refine ⟨hnoamp c hcchunk, ?_⟩
    simpa [notHash] using hq c (hchunkmem c hcchunk)

/-- Invariants holding of every `parseUrl` result, strong enough to reparse
its serialization. -/
structure UrlWf (p : UrlParts) : Prop where
  scheme_ne : p.scheme ≠ []
  scheme_chars : p.scheme.all isSchemeChar = true
  scheme_lower : p.scheme.map Char.toLower = p.scheme
  host_ne : p.host ≠ []
  host_chars : p.host.all isHostChar = true
  path_head : p.pathname.head? = some '/'
  path_chars : p.pathname.all notPathEnd = true
  params_wf : p.params.all goodKV = true

theorem map_toLower_idem (l : List Char) :
    (l.map Char.toLower).map Char.toLower = l.map Char.toLower := by
  rw [List.map_map]
  exact List.map_congr_left (fun c _ => toLower_toLower c)

theorem all_isSchemeChar_map_toLower (l : List Char) :
    (l.map Char.toLower).all isSchemeChar = l.all isSchemeChar := by
  rw [List.all_map]
  congr 1
  funext c
  exact isSchemeChar_toLower c

theorem takeWhile_ne_nil_iff {p : Char → Bool} {l : List Char}
    (h : l.takeWhile p ≠ []) :
    ∃ y ys, l = y :: ys ∧ p y = true ∧ l.takeWhile p = y :: ys.takeWhile p := by
  cases l with
  | nil => simp at h
  | cons y ys =>
    rw [List.takeWhile_cons] at h ⊢
    by_cases hp : p y = true
    · exact ⟨y, ys, rfl, hp, by rw [if_pos hp]⟩
    · rw [if_neg hp] at h
      exact absurd rfl h

theorem char_slash_of_ends {y : Char} (h1 : notHostEnd y = false)
    (h2 : notPathEnd y = true) : y = '/' := by
  simp only [notHostEnd, Bool.and_eq_false_iff, Bool.not_eq_false',
    decide_eq_true_iff] at h1
  simp only [notPathEnd, Bool.and_eq_true, Bool.not_eq_true',
    decide_eq_false_iff_not] at h2
  rcases h1 with (h | h) | h
  · exact h
  · exact absurd h h2.1
  · exact absurd h h2.2

theorem parseUrl_wf {u : List Char} {p : UrlParts} (h : parseUrl u = some p) :
    UrlWf p := by
  simp only [parseUrl] at h
  split at h
  · cases h
  rename_i hschne
  split at h
  case h_2 => cases h
  rename_i c0 c1 c2 rest2 hdrop
  split at h
  case isFalse => cases h
  rename_i hcolon
  split at h
  · cases h
  rename_i hhostne
  split at h
  · cases h
  rename_i hhostchars
  have hhostall : (rest2.takeWhile notHostEnd).all isHostChar = true := by
    revert hhostchars
    simp
  have hschall : (u.takeWhile isSchemeChar).all isSchemeChar = true :=
    List.all_takeWhile
  have hschnn : u.takeWhile isSchemeChar ≠ [] := by
    intro hh
    rw [hh] at hschne
    exact hschne rfl
  have hpathfacts : ∀ q : List Char,
      (if ((rest2.dropWhile notHostEnd).takeWhile notPathEnd).isEmpty then ['/']
        else (rest2.dropWhile notHostEnd).takeWhile notPathEnd).head? = some '/' ∧
      (if ((rest2.dropWhile notHostEnd).takeWhile notPathEnd).isEmpty then ['/']
        else (rest2.dropWhile notHostEnd).takeWhile notPathEnd).all notPathEnd = true := by
    intro _
    by_cases hemp : ((rest2.dropWhile notHostEnd).takeWhile notPathEnd).isEmpty
    · simp only [if_pos hemp]
      exact ⟨rfl, by decide⟩
    · simp only [if_neg hemp]
      have hne : (rest2.dropWhile notHostEnd).takeWhile notPathEnd ≠ [] := by
        intro hh
        rw [hh] at hemp
        exact hemp rfl
      obtain ⟨y, ys, hys, hpy, htw⟩ := takeWhile_ne_nil_iff hne
      have hyfail : notHostEnd y = false := by
        have hh := List.head?_dropWhile_not notHostEnd rest2
        rw [hys] at hh
        simpa using hh
      have hy : y = '/' := char_slash_of_ends hyfail hpy
      constructor
      · rw [htw, hy]
        rfl
      · exact List.all_takeWhile
  split at h
  · rename_i hrest4
    cases h
    exact ⟨by simpa using hschnn, by rw [all_isSchemeChar_map_toLower]; exact hschall,
      map_toLower_idem _, by simpa using hhostne, hhostall,
      (hpathfacts []).1, (hpathfacts []).2, by simp⟩
  rename_i c3 rest4 hrest4
  split at h
  · rename_i hc3
    cases h
    refine ⟨by simpa using hschnn, by rw [all_isSchemeChar_map_toLower]; exact hschall,
      map_toLower_idem _, by simpa using hhostne, hhostall,
      (hpathfacts []).1, (hpathfacts []).2, ?_⟩
    exact parseQuery_wf List.all_takeWhile
  split at h
  · rename_i hc3 hc3b
    cases h
    exact ⟨by simpa using hschnn, by rw [all_isSchemeChar_map_toLower]; exact hschall,
      map_toLower_idem _, by simpa using hhostne, hhostall,
      (hpathfacts []).1, (hpathfacts []).2, by simp⟩
  · cases h

theorem isHostChar_imp_notHostEnd {c : Char} (h : isHostChar c = true) :
    notHostEnd c = true := by
  simp only [isHostChar, isSchemeChar, Bool.or_eq_true, decide_eq_true_iff] at h
  simp only [notHostEnd, Bool.and_eq_true, Bool.not_eq_true', decide_eq_false_iff_not]
  rcases h with ((hr | hr) | hd) | hp
  · refine ⟨⟨?_, ?_⟩, ?_⟩ <;> (intro he; subst he; exact absurd hr (by decide))
  · refine ⟨⟨?_, ?_⟩, ?_⟩ <;> (intro he; subst he; exact absurd hr (by decide))
  · refine ⟨⟨?_, ?_⟩, ?_⟩ <;> (intro he; subst he; exact absurd hd (by decide))
  · rcases hp with hp | hp | hp | hp <;>
      (subst hp; exact ⟨⟨by decide, by decide⟩, by decide⟩)

theorem all_notHostEnd_of_isHostChar {l : List Char} (h : l.all isHostChar = true) :
    l.all notHostEnd = true := by
  rw [List.all_eq_true] at h ⊢
  exact fun c hc => isHostChar_imp_notHostEnd (h c hc)

theorem joinSep_all_notHash {params : List (List Char × List Char)}
    (h : params.all goodKV = true) :
    (joinSep '&' (params.map renderKV)).all notHash = true := by
  rw [List.all_eq_true]
  intro c hc
  rcases mem_joinSep hc with hs | ⟨ch, hch, hcch⟩
  · subst hs
    decide
  · rcases List.mem_map.mp hch with ⟨kv, hkv, hr⟩
    have h2 := renderKV_no_hash (List.all_eq_true.mp h kv hkv)
    rw [List.all_eq_true] at h2
    exact h2 c (hr ▸ hcch)

/-- Serialization of well-formed URL parts reparses to exactly those parts. -/
theorem parseUrl_serializeUrl {p : UrlParts} (h : UrlWf p) :
    parseUrl (serializeUrl p) = some p := by
  obtain ⟨ps, ph, pp, pq, pf⟩ := p
  obtain ⟨pt, hpath⟩ : ∃ pt, pp = '/' :: pt := by
    cases hp : pp with
    | nil =>
      have h2 := h.path_head
      rw [hp] at h2
      cases h2
    | cons a t =>
      have h2 := h.path_head
      rw [hp] at h2
      simp only [List.head?_cons, Option.some.injEq] at h2
      exact ⟨t, by rw [h2]⟩
  have hschall := h.scheme_chars
  have hhostall := h.host_chars
  have hpchars := h.path_chars
  have hschlower := h.scheme_lower
  have hschnn : ps ≠ [] := h.scheme_ne
  have hhostnn : ph ≠ [] := h.host_ne
  have hparamswf := h.params_wf
  simp only [] at hschall hhostall hpchars hschlower hparamswf
  subst hpath
  set X := serializeQuery pq ++ serializeFrag pf with hX
  set u := serializeUrl ⟨ps, ph, '/' :: pt, pq, pf⟩ with hu
  have hu2 : u = ps ++ ':' :: '/' :: '/' :: (ph ++ (('/' :: pt) ++ X)) := rfl
  have e1 : u.takeWhile isSchemeChar = ps := by
    rw [hu2, takeWhile_append_all _ hschall, takeWhile_cons_neg _ (by decide),
      List.append_nil]
  have e2 : u.dropWhile isSchemeChar = ':' :: '/' :: '/' :: (ph ++ (('/' :: pt) ++ X)) := by
    rw [hu2, dropWhile_append_all _ hschall, dropWhile_cons_neg _ (by decide)]
  have hhne2 := all_notHostEnd_of_isHostChar hhostall
  have e3 : (ph ++ (('/' :: pt) ++ X)).takeWhile notHostEnd = ph := by
    rw [takeWhile_append_all _ hhne2, List.cons_append,
      takeWhile_cons_neg _ (by decide), List.append_nil]
  have e4 : (ph ++ (('/' :: pt) ++ X)).dropWhile notHostEnd = ('/' :: pt) ++ X := by
    rw [dropWhile_append_all _ hhne2, List.cons_append,
      dropWhile_cons_neg _ (by decide), ← List.cons_append]
  have e5 : X.takeWhile notPathEnd = [] := by
    cases hq : pq with
    | nil =>
      cases hf : pf with
      | none => simp [hX, hq, hf, serializeQuery, serializeFrag]
      | some f =>
        simp only [hX, hq, hf, serializeQuery, serializeFrag, List.nil_append]
        exact takeWhile_cons_neg _ (by decide)
    | cons kv rest =>
      simp only [hX, hq, serializeQuery, List.cons_append]
      exact takeWhile_cons_neg _ (by decide)
  have e6 : X.dropWhile notPathEnd = X := by
    cases hq : pq with
    | nil =>
      cases hf : pf with
      | none => simp [hX, hq, hf, serializeQuery, serializeFrag]
      | some f =>
        simp only [hX, hq, hf, serializeQuery, serializeFrag, List.nil_append]
        exact dropWhile_cons_neg _ (by decide)
    | cons kv rest =>
      simp only [hX, hq, serializeQuery, List.cons_append]
      exact dropWhile_cons_neg _ (by decide)
  have e7 : (('/' :: pt) ++ X).takeWhile notPathEnd = '/' :: pt := by
    rw [takeWhile_append_all _ hpchars, e5, List.append_nil]
  have e8 : (('/' :: pt) ++ X).dropWhile notPathEnd = X := by
    rw [dropWhile_append_all _ hpchars, e6]
  rw [parseUrl]
  simp only [e1, e2, e3, e4, e7, e8]
  rw [if_neg (by simpa using hschnn)]
  rw [if_pos (show True ∧ True ∧ True from ⟨trivial, trivial, trivial⟩)]
  rw [if_neg (by simpa using hhostnn)]
  rw [if_neg (by simpa using hhostall)]
  rw [if_neg (by simp)]
  rw [hschlower]
  cases hq : pq with
  | nil =>
    cases hf : pf with
    | none =>
      simp [hX, hq, hf, serializeQuery, serializeFrag]
    | some f =>
      simp only [hX, hq, hf, serializeQuery, serializeFrag, List.nil_append]
      rw [if_neg (by decide)]
      simp
  | cons kv rest =>
    have hqne : pq ≠ [] := by
      rw [hq]
      simp
    have hser : serializeQuery pq = '?' :: joinSep '&' (pq.map renderKV) := by
      rw [hq]
      rfl
    have hXq : X = '?' :: (joinSep '&' (pq.map renderKV) ++ serializeFrag pf) := by
      rw [hX, hser, List.cons_append]
    have hJ : (joinSep '&' (pq.map renderKV)).all notHash = true :=
      joinSep_all_notHash hparamswf
    have htwJ : ((joinSep '&' (pq.map renderKV)) ++ serializeFrag pf).takeWhile notHash =
        joinSep '&' (pq.map renderKV) := by
      rw [takeWhile_append_all _ hJ]
      cases pf with
      | none => simp [serializeFrag]
      | some f =>
        rw [serializeFrag, takeWhile_cons_neg _ (by decide), List.append_nil]
    have hdwJ : ((joinSep '&' (pq.map renderKV)) ++ serializeFrag pf).dropWhile notHash =
        serializeFrag pf := by
      rw [dropWhile_append_all _ hJ]
      cases pf with
      | none => simp [serializeFrag]
      | some f => rw [serializeFrag, dropWhile_cons_neg _ (by decide)]
    rw [hXq]
    simp only [htwJ, hdwJ, parseQuery_joinSep hqne hparamswf, fragOf, if_pos]
    cases pf with
    | none => simp [serializeFrag, hq]
    | some f => simp [serializeFrag, hq]

/-! ### Normalization closure on well-formed parts -/

theorem all_of_sublist {p : Char → Bool} {l₁ l₂ : List Char} (hs : l₁.Sublist l₂)
    (h : l₂.all p = true) : l₁.all p = true := by
  rw [List.all_eq_true] at h ⊢
  exact fun c hc => h c (hs.subset hc)

theorem normParts_wf {p : UrlParts} (h : UrlWf p) : UrlWf (normParts p) := by
  obtain ⟨pt, hpath⟩ : ∃ pt, p.pathname = '/' :: pt := by
    cases hp : p.pathname with
    | nil =>
      have h2 := h.path_head
      rw [hp] at h2
      cases h2
    | cons a t =>
      have h2 := h.path_head
      rw [hp] at h2
      simp only [List.head?_cons, Option.some.injEq] at h2
      exact ⟨t, by rw [h2]⟩
  refine ⟨h.scheme_ne, h.scheme_chars, h.scheme_lower, ?_, ?_, ?_, ?_, ?_⟩
  · simp only [normParts]
    simpa using h.host_ne
  · simp only [normParts]
    rw [List.all_map]
    have h2 := h.host_chars
    rw [List.all_eq_true] at h2 ⊢
    exact fun c hc => by
      simp only [Function.comp_apply, isHostChar_toLower]
      exact h2 c hc
  · simp only [normParts]
    by_cases hemp : (stripTrailingSlashes p.pathname).isEmpty
    · rw [if_pos hemp]
      rfl
    · rw [if_neg hemp]
      rw [hpath]
      rcases stripTrailingSlashes_cons '/' pt with hc | ⟨r, hc⟩
      · exfalso
        rw [hpath, hc] at hemp
        exact hemp rfl
      · rw [hc]
        rfl
  · simp only [normParts]
    by_cases hemp : (stripTrailingSlashes p.pathname).isEmpty
    · rw [if_pos hemp]
      decide
    · rw [if_neg hemp]
      exact all_of_sublist (stripTrailingSlashes_sublist _) h.path_chars
  · simp only [normParts]
    have h2 := h.params_wf
    rw [List.all_eq_true] at h2 ⊢
    exact fun kv hkv => h2 kv (List.mem_of_mem_filter hkv)

theorem normParts_idem (p : UrlParts) :
    normParts (normParts p) = normParts p := by
  simp only [normParts]
  congr 1
  · exact map_toLower_idem _
  · by_cases hemp : (stripTrailingSlashes p.pathname).isEmpty
    · rw [if_pos hemp]
      decide
    · rw [if_neg hemp, stripTrailingSlashes_idem, if_neg hemp]
  · rw [List.filter_filter]
    apply List.filter_congr
    intro kv hkv
    rw [Bool.and_self]

/-! ### Fallback preservation: unparsable inputs stay unparsable after the
lowercase plus trailing-slash-strip fallback -/

theorem strip_append (a b : List Char) :
    stripTrailingSlashes (a ++ b) =
      if stripTrailingSlashes b = [] then stripTrailingSlashes a
      else a ++ stripTrailingSlashes b := by
  induction a with
  | nil =>
    simp only [List.nil_append]
    split
    · rename_i hb
      rw [hb]
      rfl
    · rfl
  | cons c t ih =>
    rw [List.cons_append, stripTrailingSlashes, ih]
    by_cases hb : stripTrailingSlashes b = []
    · rw [if_pos hb, if_pos hb, stripTrailingSlashes]
    · rw [if_neg hb, if_neg hb]
      cases h2 : t ++ stripTrailingSlashes b with
      | nil => exact absurd ((List.append_eq_nil).mp h2).2 hb
      | cons x xs => rw [List.cons_append, h2]

theorem strip_decomp (l : List Char) :
    ∃ m, l = stripTrailingSlashes l ++ List.replicate m '/' := by
  induction l with
  | nil => exact ⟨0, rfl⟩
  | cons c t ih =>
    obtain ⟨m, hm⟩ := ih
    cases hs : stripTrailingSlashes t with
    | nil =>
      rw [hs, List.nil_append] at hm
      by_cases hc : c = '/'
      · refine ⟨m + 1, ?_⟩
        rw [stripTrailingSlashes, hs, if_pos hc, List.nil_append, hc,
          List.replicate_succ, ← hm]
      · refine ⟨m, ?_⟩
        rw [stripTrailingSlashes, hs, if_neg hc, List.cons_append, List.nil_append, ← hm]
    | cons a r =>
      refine ⟨m, ?_⟩
      rw [stripTrailingSlashes, hs, List.cons_append, ← hs, ← hm]

theorem notHostEnd_toLower (c : Char) : notHostEnd (Char.toLower c) = notHostEnd c := by
  simp only [notHostEnd]
  rw [decide_eq_decide.mpr
    (toLower_eq_iff_special (by decide) (by decide) : Char.toLower c = '/' ↔ c = '/')]
  rw [decide_eq_decide.mpr
    (toLower_eq_iff_special (by decide) (by decide) : Char.toLower c = '?' ↔ c = '?')]
  rw [decide_eq_decide.mpr
    (toLower_eq_iff_special (by decide) (by decide) : Char.toLower c = '#' ↔ c = '#')]

theorem notHostEnd_false_cases {c : Char} (h : notHostEnd c = false) :
    c = '/' ∨ c = '?' ∨ c = '#' := by
  simp only [notHostEnd, Bool.and_eq_false_iff, Bool.not_eq_false',
    decide_eq_true_iff] at h
  tauto

theorem notPathEnd_false_cases {c : Char} (h : notPathEnd c = false) :
    c = '?' ∨ c = '#' := by
  simp only [notPathEnd, Bool.and_eq_false_iff, Bool.not_eq_false',
    decide_eq_true_iff] at h
  tauto

theorem parseUrl_none_of_scheme_nil {l : List Char}
    (h : l.takeWhile isSchemeChar = []) : parseUrl l = none := by
  simp only [parseUrl, h]
  rfl

theorem parseUrl_none_all_scheme {l : List Char} (hall : l.all isSchemeChar = true) :
    parseUrl l = none := by
  cases l with
  | nil => rfl
  | cons c t =>
    simp only [parseUrl]
    rw [takeWhile_all_self hall, dropWhile_all_self hall]
    rw [if_neg (by simp)]

/-- When a URL with a scheme and the `://` marker fails to parse, the failure
is in the host section: it is empty or contains an invalid character. -/
theorem host_fail_of_parseUrl_none {u t2 : List Char}
    (h : parseUrl u = none) (hs : ¬u.takeWhile isSchemeChar = [])
    (hr : u.dropWhile isSchemeChar = ':' :: '/' :: '/' :: t2) :
    t2.takeWhile notHostEnd = [] ∨ (t2.takeWhile notHostEnd).all isHostChar = false := by
  by_contra hcon
  push_neg at hcon
  obtain ⟨hne, hall⟩ := hcon
  have hall2 : (t2.takeWhile notHostEnd).all isHostChar = true := by
    cases hb : (t2.takeWhile notHostEnd).all isHostChar
    · exact absurd hb hall
    · rfl
  simp only [parseUrl, hr] at h
  rw [if_neg (by simpa using hs)] at h
  rw [if_pos (show True ∧ True ∧ True from ⟨trivial, trivial, trivial⟩)] at h
  rw [if_neg (by simpa using hne)] at h
  rw [if_neg (by simp [hall2])] at h
  cases hdp : (t2.dropWhile notHostEnd).dropWhile notPathEnd with
  | nil =>
    rw [hdp] at h
    cases h
  | cons c3 rest4 =>
    rw [hdp] at h
    have hc3 : notPathEnd c3 = false := by
      have h2 := List.head?_dropWhile_not notPathEnd (t2.dropWhile notHostEnd)
      rw [hdp] at h2
      simpa using h2
    rcases notPathEnd_false_cases hc3 with hq | hh
    · subst hq
      simp at h
    · subst hh
      simp at h

theorem ne_slash_of_notHostEnd {c : Char} (h : notHostEnd c = true) : c ≠ '/' := by
  simp only [notHostEnd, Bool.and_eq_true, Bool.not_eq_true',
    decide_eq_false_iff_not] at h
  exact h.1.1

/-- The host-guard failure transfers from a list to any list obtained from its
lowercase image by removing a trailing run of slashes. -/
theorem host_fail_transfer {t2 rest2 : List Char} {m : Nat}
    (hEq : t2.map Char.toLower = rest2 ++ List.replicate m '/')
    (hfail : t2.takeWhile notHostEnd = [] ∨
      (t2.takeWhile notHostEnd).all isHostChar = false) :
    rest2.takeWhile notHostEnd = [] ∨
      ((rest2.takeWhile notHostEnd).all isHostChar = false ∧
        rest2.takeWhile notHostEnd ≠ []) := by
  rcases hfail with hfail | hfail
  · -- host section of t2 is empty: t2 is empty or starts with a host-ending char
    left
    cases ht2 : t2 with
    | nil =>
      rw [ht2] at hEq
      simp only [List.map_nil] at hEq
      have hrest : rest2 = [] := (List.append_eq_nil.mp hEq.symm).1
      rw [hrest]
      rfl
    | cons d t3 =>
      rw [ht2, List.takeWhile_cons] at hfail
      have hd : notHostEnd d = false := by
        by_cases hdd : notHostEnd d = true
        · rw [if_pos hdd] at hfail
          cases hfail
        · exact Bool.eq_false_iff.mpr (fun hbb => hdd hbb)
      cases hrest : rest2 with
      | nil => rfl
      | cons x xs =>
        rw [ht2, hrest] at hEq
        simp only [List.map_cons, List.cons_append, List.cons.injEq] at hEq
        rw [takeWhile_cons_neg]
        rw [← hEq.1, notHostEnd_toLower]
        exact hd
  · -- host section of t2 has an invalid character that survives stripping
    obtain ⟨cstar, hcmem, hcbad⟩ := List.all_eq_false.mp hfail
    have hcbad2 : isHostChar cstar = false :=
      Bool.eq_false_iff.mpr (fun hbb => hcbad hbb)
    have hhostall : (t2.takeWhile notHostEnd).all notHostEnd = true := List.all_takeWhile
    have hcgood : notHostEnd cstar = true := List.all_eq_true.mp hhostall cstar hcmem
    obtain ⟨x0, y0, hsplit⟩ := List.append_of_mem hcmem
    have hx0all : x0.all notHostEnd = true := by
      rw [List.all_eq_true]
      intro c hc
      exact List.all_eq_true.mp hhostall c (by rw [hsplit]; exact List.mem_append_left _ hc)
    have ht2split : t2 = x0 ++ cstar :: (y0 ++ t2.dropWhile notHostEnd) := by
      conv_lhs => rw [← List.takeWhile_append_dropWhile notHostEnd t2, hsplit]
      rw [List.append_assoc, List.cons_append]
    set A := x0.map Char.toLower with hA
    set cc := Char.toLower cstar with hcc
    set B := (y0 ++ t2.dropWhile notHostEnd).map Char.toLower with hB
    have hmapsplit : t2.map Char.toLower = A ++ cc :: B := by
      rw [ht2split, List.map_append, List.map_cons]
    have hccne : cc ≠ '/' := by
      apply ne_slash_of_notHostEnd
      rw [hcc, notHostEnd_toLower]
      exact hcgood
    have hccbad : isHostChar cc = false := by
      rw [hcc, isHostChar_toLower]
      exact hcbad2
    have hAall : A.all notHostEnd = true := by
      rw [hA, List.all_map, List.all_eq_true]
      intro c hc
      simp only [Function.comp_apply, notHostEnd_toLower]
      exact List.all_eq_true.mp hx0all c hc
    have hEq2 : A ++ cc :: B = rest2 ++ List.replicate m '/' := by
      rw [← hmapsplit, hEq]
    -- position |A| carries cc on the left; if rest2 were shorter, the right
    -- side would carry a slash there
    have hlen : A.length + 1 ≤ rest2.length := by
      by_contra hshort
      push_neg at hshort
      have hbound : A.length < (A ++ cc :: B).length := by
        simp
      have hleft : (A ++ cc :: B)[A.length] = cc := by
        rw [List.getElem_append_right (Nat.le_refl _)]
        simp
      have hbound2 : A.length < (rest2 ++ List.replicate m '/').length := by
        rw [← hEq2]
        exact hbound
      have hrlen : rest2.length ≤ A.length := by omega
      have hright : (rest2 ++ List.replicate m '/')[A.length] = '/' := by
        rw [List.getElem_append_right hrlen]
        exact List.getElem_replicate _ _
      have := List.getElem_of_eq hEq2 hbound
      rw [hleft, hright] at this
      exact hccne this
    obtain ⟨k, hk⟩ : ∃ k, rest2.length - A.length = k + 1 :=
      ⟨rest2.length - A.length - 1, by omega⟩
    have hrest2 : rest2 = A ++ cc :: B.take k := by
      have h1 : rest2 = (rest2 ++ List.replicate m '/').take rest2.length :=
        (List.take_left _ _).symm
      conv_lhs => rw [h1, ← hEq2]
      rw [List.take_append_eq_append_take, List.take_of_length_le (by omega), hk,
        List.take_succ_cons]
    right
    have htw : rest2.takeWhile notHostEnd =
        A ++ cc :: (B.take k).takeWhile notHostEnd := by
      rw [hrest2, takeWhile_append_all _ hAall, List.takeWhile_cons, if_pos (by
        rw [hcc, notHostEnd_toLower]
        exact hcgood)]
    constructor
    · rw [htw]
      rw [List.all_eq_false]
      exact ⟨cc, by simp, by simp [hccbad]⟩
    · rw [htw]
      intro hnil
      exact absurd ((List.append_eq_nil.mp hnil).2) (by simp)

/-- If a URL does not parse, its lowercase and trailing-slash-stripped image
does not parse either, so the fallback branch of `normalizeUrl` is stable. -/
theorem parseUrl_fallback_none {u : List Char} (h : parseUrl u = none) :
    parseUrl (stripTrailingSlashes (u.map Char.toLower)) = none := by
  by_cases hs : u.takeWhile isSchemeChar = []
  · apply parseUrl_none_of_scheme_nil
    cases hu : u with
    | nil => rfl
    | cons c t =>
      rw [hu] at hs
      have hc : isSchemeChar c = false := by
        rw [List.takeWhile_cons] at hs
        by_cases hcc : isSchemeChar c = true
        · rw [if_pos hcc] at hs
          cases hs
        · exact Bool.eq_false_iff.mpr (fun hbb => hcc hbb)
      have hv2 : (c :: t).map Char.toLower = Char.toLower c :: t.map Char.toLower := rfl
      rw [hv2]
      rcases stripTrailingSlashes_cons (Char.toLower c) (t.map Char.toLower)
        with h2 | ⟨r, h2⟩
      · rw [h2]
        rfl
      · rw [h2]
        exact takeWhile_cons_neg _ (by rw [isSchemeChar_toLower]; exact hc)
  · have hsall : (u.takeWhile isSchemeChar).all isSchemeChar = true := List.all_takeWhile
    have hs'all : ((u.takeWhile isSchemeChar).map Char.toLower).all isSchemeChar = true := by
      rw [all_isSchemeChar_map_toLower]
      exact hsall
    have hv : u.map Char.toLower =
        (u.takeWhile isSchemeChar).map Char.toLower ++
          (u.dropWhile isSchemeChar).map Char.toLower := by
      rw [← List.map_append, List.takeWhile_append_dropWhile]
    have hs'last : ((u.takeWhile isSchemeChar).map Char.toLower).getLast? ≠ some '/' := by
      intro hlast
      obtain ⟨ys, hys⟩ := List.getLast?_eq_some_iff.mp hlast
      have hmem : '/' ∈ (u.takeWhile isSchemeChar).map Char.toLower := by
        rw [hys]
        simp
      have h3 := List.all_eq_true.mp hs'all '/' hmem
      exact absurd h3 (by decide)
    have hstrip_s : stripTrailingSlashes ((u.takeWhile isSchemeChar).map Char.toLower) =
        (u.takeWhile isSchemeChar).map Char.toLower :=
      stripTrailingSlashes_of_getLast? hs'last
    rw [hv, strip_append]
    by_cases hr0 : stripTrailingSlashes ((u.dropWhile isSchemeChar).map Char.toLower) = []
    · rw [if_pos hr0, hstrip_s]
      exact parseUrl_none_all_scheme hs'all
    · rw [if_neg hr0]
      obtain ⟨c0, t0, hr⟩ : ∃ c0 t0, u.dropWhile isSchemeChar = c0 :: t0 := by
        cases hrr : u.dropWhile isSchemeChar with
        | nil =>
          exfalso
          apply hr0
          rw [hrr]
          rfl
        | cons a b => exact ⟨a, b, rfl⟩
      have hc0 : isSchemeChar c0 = false := by
        have h2 := List.head?_dropWhile_not isSchemeChar u
        rw [hr] at h2
        simpa using h2
      have hrm : (u.dropWhile isSchemeChar).map Char.toLower =
          Char.toLower c0 :: t0.map Char.toLower := by
        rw [hr]
        rfl
      obtain ⟨rr, hrr⟩ : ∃ rr,
          stripTrailingSlashes ((u.dropWhile isSchemeChar).map Char.toLower) =
            Char.toLower c0 :: rr := by
        rw [hrm]
        rcases stripTrailingSlashes_cons (Char.toLower c0) (t0.map Char.toLower)
          with h2 | h2
        · rw [hrm] at hr0
          exact absurd h2 hr0
        · exact h2
      simp only [parseUrl]
      rw [takeWhile_append_all _ hs'all, hrr,
        takeWhile_cons_neg _ (by rw [isSchemeChar_toLower]; exact hc0), List.append_nil]
      rw [dropWhile_append_all _ hs'all,
        dropWhile_cons_neg _ (by rw [isSchemeChar_toLower]; exact hc0)]
      rw [if_neg (by simpa using hs)]
      obtain ⟨m, hdec⟩ := strip_decomp ((u.dropWhile isSchemeChar).map Char.toLower)
      rw [hrr] at hdec
      split
      case _ =>
        rename_i x c1 c2 rest2 heq
        obtain ⟨hx, hrr2⟩ : x = Char.toLower c0 ∧ rr = c1 :: c2 :: rest2 := by
          have h2 := heq
          simp only [List.cons.injEq] at h2
          exact ⟨h2.1.symm, h2.2⟩
        by_cases hcond : x = ':' ∧ c1 = '/' ∧ c2 = '/'
        · rw [if_pos hcond]
          obtain ⟨hx2, hc1, hc2⟩ := hcond
          -- the original tail also starts with the marker `://`
          have hc0colon : c0 = ':' := by
            apply toLower_eq_of_lower (by decide)
            rw [← hx, hx2]
          have hmapt0 : t0.map Char.toLower =
              c1 :: c2 :: (rest2 ++ List.replicate m '/') := by
            rw [hrm, hrr2] at hdec
            simp only [List.cons_append, List.cons.injEq] at hdec
            exact hdec.2
          obtain ⟨d1, t01, ht0⟩ : ∃ d1 t01, t0 = d1 :: t01 := by
            cases ht : t0 with
            | nil =>
              rw [ht] at hmapt0
              cases hmapt0
            | cons a b => exact ⟨a, b, rfl⟩
          obtain ⟨d2, t2, ht01⟩ : ∃ d2 t2, t01 = d2 :: t2 := by
            cases ht : t01 with
            | nil =>
              rw [ht0, ht] at hmapt0
              cases hmapt0
            | cons a b => exact ⟨a, b, rfl⟩
          rw [ht0, ht01] at hmapt0
          simp only [List.map_cons, List.cons.injEq] at hmapt0
          have hd1 : d1 = '/' := by
            apply toLower_eq_of_lower (by decide)
            rw [hmapt0.1, hc1]
          have hd2 : d2 = '/' := by
            apply toLower_eq_of_lower (by decide)
            rw [hmapt0.2.1, hc2]
          have hrshape : u.dropWhile isSchemeChar = ':' :: '/' :: '/' :: t2 := by
            rw [hr, hc0colon, ht0, ht01, hd1, hd2]
          have hfail := host_fail_of_parseUrl_none h hs hrshape
          have htransfer := host_fail_transfer hmapt0.2.2 hfail
          rcases htransfer with hw | ⟨hwall, hwne⟩
          · rw [if_pos (by rw [hw]; rfl)]
          · rw [if_neg (by simpa using hwne), if_pos (by simp [hwall])]
        · rw [if_neg hcond]
      case _ => rfl

theorem normalizeUrlChars_idem (u : List Char) :
    normalizeUrlChars (normalizeUrlChars u) = normalizeUrlChars u := by
  cases hp : parseUrl u with
  | some p =>
    have h1 : normalizeUrlChars u = serializeUrl (normParts p) := by
      rw [normalizeUrlChars, hp]
    have hwf2 := normParts_wf (parseUrl_wf hp)
    rw [h1, normalizeUrlChars, parseUrl_serializeUrl hwf2]
    show serializeUrl (normParts (normParts p)) = serializeUrl (normParts p)
    rw [normParts_idem]
  | none =>
    have h1 : normalizeUrlChars u = stripTrailingSlashes (u.map Char.toLower) := by
      rw [normalizeUrlChars, hp]
    rw [h1, normalizeUrlChars, parseUrl_fallback_none hp]
    show stripTrailingSlashes ((stripTrailingSlashes (u.map Char.toLower)).map Char.toLower) =
      stripTrailingSlashes (u.map Char.toLower)
    have hlow : (stripTrailingSlashes (u.map Char.toLower)).map Char.toLower =
        stripTrailingSlashes (u.map Char.toLower) := by
      have h2 : ∀ c ∈ stripTrailingSlashes (u.map Char.toLower), Char.toLower c = id c := by
        intro c hc
        have hc2 : c ∈ u.map Char.toLower :=
          (stripTrailingSlashes_sublist _).subset hc
        obtain ⟨x, hx, hxc⟩ := List.mem_map.mp hc2
        rw [← hxc, toLower_toLower]
        rfl
      rw [List.map_congr_left h2, List.map_id]
    rw [hlow, stripTrailingSlashes_idem]

/-! ### Chunker (packages/cli/src/chunk.ts) -/

structure CrawledDocument where
  url : String
  title : String
  content : List Char
deriving DecidableEq, Repr

/-- Embedding vectors: fixed-dimension float arrays in the source, modelled
with exact rational components. -/
abbrev Vec := List Rat

structure DocumentChunk where
  content : List Char
  url : String
  title : String
  chunkIndex : Nat
  embedding : Option Vec
deriving DecidableEq, Repr

def CHUNK_SIZE : Nat := 500
def CHUNK_OVERLAP : Nat := 50

/-- Characters per chunk window (`CHUNK_SIZE * 4`). -/
def charSize : Nat := CHUNK_SIZE * 4

/-- Character overlap between consecutive windows (`CHUNK_OVERLAP * 4`). -/
def charOverlap : Nat := CHUNK_OVERLAP * 4

/-- The splitting loop of `chunkDocuments` for one long document.  The loop in
the source advances `start` by at least `charSize - charOverlap - ...` each
iteration (always more than 800 characters), so `text.length` is more fuel
than the loop can ever use; `chunkLoop_fuel_irrelevant` below shows any
sufficient fuel computes the same list. -/
def chunkLoop (text : List Char) (url title : String) :
    Nat → Nat → Nat → List DocumentChunk
  | 0, _, _ => []
  | fuel + 1, start, chunkIndex =>
    if start < text.length then
      let end0 := start + charSize
      let end1 :=
        if end0 < text.length then
          let lastPeriod := lastIndexOf text '.' end0
          let lastNewline := lastIndexOf text '\n' end0
          let boundary := max lastPeriod lastNewline
          if boundary > (start : Int) + (charSize / 2 : Nat) then (boundary + 1).toNat
          else end0
        else end0
      let chunkText := trimChars (sliceChars text start end1)
      if chunkText.length > 50 then
        ⟨chunkText, url, title, chunkIndex, none⟩ ::
          chunkLoop text url title fuel (end1 - charOverlap) (chunkIndex + 1)
      else chunkLoop text url title fuel (end1 - charOverlap) chunkIndex
    else []

/-- Chunks contributed by a single document: one untouched chunk for short
documents, the overlapping-window loop for long ones. -/
def chunkDoc (doc : CrawledDocument) : List DocumentChunk :=
  if doc.content.length ≤ charSize then
    [⟨doc.content, doc.url, doc.title, 0, none⟩]
  else
    chunkLoop doc.content doc.url doc.title doc.content.length 0 0

/-- Model of `chunkDocuments`: per-document chunks concatenated in order,
with `chunkIndex` restarting at 0 for each document. -/
def chunkDocuments (documents : List CrawledDocument) : List DocumentChunk :=
  (documents.map chunkDoc).flatten

/-! ### Embedding batcher (packages/cli/src/embed.ts) -/

inductive ProviderResponse where
  | success (embeddings : List Vec)
  | rateLimited (retryAfterMs : Option Nat)
  | fatal
deriving DecidableEq, Repr

inductive BatchOutcome where
  | ok (embeddings : List Vec)
  | rateLimitExceeded
  | fatalError
  | skipped
deriving DecidableEq, Repr

/-- Observable behavior of the per-batch retry loop: number of provider
calls, the sleeps performed between attempts (ms), and how the loop ended. -/
structure BatchTrace where
  attempts : Nat
  delays : List Nat
  outcome : BatchOutcome
deriving DecidableEq, Repr

def MAX_RETRIES : Nat := 5
def BASE_DELAY_MS : Nat := 1000
def BATCH_SIZE : Nat := 25

/-- The `while (!success && retries < MAX_RETRIES)` loop of
`generateEmbeddings` for one batch.  `provider n` is the provider response to
the `n`-th attempt.  The fuel argument only bounds the recursion;
`MAX_RETRIES` fuel is enough since `retries` grows by one per iteration, and
the fuel-exhaustion branch coincides with the loop-condition-false exit
(`skipped`, unreachable from `retries = 0` with positive fuel). -/
def retryLoop (provider : Nat → ProviderResponse) : Nat → Nat → BatchTrace
  | 0, _ => ⟨0, [], .skipped⟩
  | fuel + 1, retries =>
    if retries < MAX_RETRIES then
      match provider retries with
      | .success embs => ⟨1, [], .ok embs⟩
      | .fatal => ⟨1, [], .fatalError⟩
      | .rateLimited hint =>
        let delay := BASE_DELAY_MS * 2 ^ ((retries + 1) - 1)
        let retryAfterMs :=
          match hint with
          | some ms => max (ms + 100) delay
          | none => delay
        if retries + 1 < MAX_RETRIES then
          let t := retryLoop provider fuel (retries + 1)
          ⟨t.attempts + 1, retryAfterMs :: t.delays, t.outcome⟩
        else ⟨1, [], .rateLimitExceeded⟩
    else ⟨0, [], .skipped⟩

def embedBatch (provider : Nat → ProviderResponse) : BatchTrace :=
  retryLoop provider MAX_RETRIES 0

structure EmbedResult where
  traces : List BatchTrace
  embedded : Option (List DocumentChunk)
deriving DecidableEq, Repr

/-- Batch iteration of `generateEmbeddings`: slice off `BATCH_SIZE` chunks,
run the retry loop, distribute returned vectors positionally, and stop the
whole call on a batch failure.  Fuel `chunks.length` suffices since each
step consumes at least one chunk.  (The fixed 500 ms pause between
successful batches has no observable effect on the store and is omitted.) -/
def embedGo (provider : Nat → Nat → ProviderResponse) :
    Nat → List DocumentChunk → Nat → EmbedResult
  | _, [], _ => ⟨[], some []⟩
  | 0, _ :: _, _ => ⟨[], some []⟩
  | fuel + 1, c :: cs, b =>
    let batch := (c :: cs).take BATCH_SIZE
    let t := embedBatch (provider b)
    match t.outcome with
    | .ok embs =>
      let withEmb := batch.zipWith (fun ch e => { ch with embedding := some e }) embs
      let rest := embedGo provider fuel ((c :: cs).drop BATCH_SIZE) (b + 1)
      ⟨t :: rest.traces, rest.embedded.map (withEmb ++ ·)⟩
    | _ => ⟨[t], none⟩

/-- Model of `generateEmbeddings`: `provider b n` is the response to attempt
`n` on batch `b`.  On success every chunk carries an embedding; on failure
the error propagates (`embedded = none`) instead of skipping the batch. -/
def generateEmbeddings (chunks : List DocumentChunk)
    (provider : Nat → Nat → ProviderResponse) : EmbedResult :=
  embedGo provider chunks.length chunks 0

/-! ### Store state (db-utils) -/

structure CrawlState where
  pendingUrls : List String
  maxPagesReached : Bool
deriving DecidableEq, Repr

structure SourceRow where
  id : Nat
  url : String
  added_at : String
  page_count : Nat
  chunk_count : Nat
  crawl_state : Option CrawlState
deriving DecidableEq, Repr

structure ChunkRow where
  id : Nat
  content : List Char
  url : String
  title : String
  chunk_index : Nat
  source_id : Nat
  embedding_blob : Option Vec
deriving DecidableEq, Repr

structure VecRow where
  rowid : Nat
  embedding : Vec
deriving DecidableEq, Repr

/-- Contents of one server store: the `sources` and `chunks` tables, the
`vec_chunks` virtual table, and the next auto-increment rowids. -/
structure StoreState where
  sources : List SourceRow
  chunks : List ChunkRow
  vec_chunks : List VecRow
  nextSourceId : Nat
  nextChunkId : Nat
deriving DecidableEq, Repr

/-- Model of `findSourceByUrl`: scan all source rows and return the first
whose normalized URL equals the normalized query URL. -/
def findSourceByUrl (st : StoreState) (url : String) : Option SourceRow :=
  st.sources.find? (fun s => decide (normalizeUrl s.url = normalizeUrl url))

/-- Model of `getOrCreateSource`: reuse a source found by normalized URL,
otherwise insert a new row storing the original URL. -/
def getOrCreateSource (st : StoreState) (url : String) (now : String) :
    Nat × StoreState :=
  match findSourceByUrl st url with
  | some s => (s.id, st)
  | none =>
    (st.nextSourceId,
      { st with
        sources := st.sources ++ [⟨st.nextSourceId, url, now, 0, 0, none⟩],
        nextSourceId := st.nextSourceId + 1 })

def updateSourceMetadata (st : StoreState) (sourceId pageCount chunkCount : Nat) :
    StoreState :=
  { st with
    sources := st.sources.map fun s =>
      if s.id = sourceId then
        { s with page_count := pageCount, chunk_count := chunkCount }
      else s }

def saveCrawlState (st : StoreState) (sourceId : Nat) (state : CrawlState) :
    StoreState :=
  { st with
    sources := st.sources.map fun s =>
      if s.id = sourceId then { s with crawl_state := some state } else s }

def clearCrawlState (st : StoreState) (sourceId : Nat) : StoreState :=
  { st with
    sources := st.sources.map fun s =>
      if s.id = sourceId then { s with crawl_state := none } else s }

def getCrawlState (st : StoreState) (sourceId : Nat) : Option CrawlState :=
  (st.sources.find? (fun s => decide (s.id = sourceId))).bind (·.crawl_state)

/-- Model of `deleteChunksForSource`: remove the chunk rows of one source,
leaving `vec_chunks` untouched, and report how many rows went away. -/
def deleteChunksForSource (st : StoreState) (sourceId : Nat) : Nat × StoreState :=
  ((st.chunks.filter (fun c => decide (c.source_id = sourceId))).length,
    { st with chunks := st.chunks.filter (fun c => !decide (c.source_id = sourceId)) })

/-- The content `rebuildVectorTable` gives to `vec_chunks`: the chunk rows
holding an embedding, in ascending id order. -/
def rebuiltVec (chunks : List ChunkRow) : List VecRow :=
  ((chunks.filter (fun c => c.embedding_blob.isSome)).insertionSort
      (fun a b => a.id ≤ b.id)).filterMap
    fun c =>
      match c.embedding_blob with
      | some e => some ⟨c.id, e⟩
      | none => none

/-- Model of `rebuildVectorTable`: drop `vec_chunks` and repopulate it from
the stored embedding blobs in ascending chunk-id order. -/
def rebuildVectorTable (st : StoreState) : StoreState :=
  { st with vec_chunks := rebuiltVec st.chunks }

/-- Model of `insertChunkWithEmbedding`: append one chunk row with the
assigned auto-increment id and, exactly when the chunk carries an embedding,
append a `vec_chunks` row under the same id. -/
def insertChunkWithEmbedding (st : StoreState) (chunk : DocumentChunk)
    (sourceId : Nat) : Nat × StoreState :=
  let chunkId := st.nextChunkId
  let row : ChunkRow :=
    ⟨chunkId, chunk.content, chunk.url, chunk.title, chunk.chunkIndex, sourceId,
      chunk.embedding⟩
  let st1 := { st with chunks := st.chunks ++ [row], nextChunkId := chunkId + 1 }
  match chunk.embedding with
  | some e => (chunkId, { st1 with vec_chunks := st1.vec_chunks ++ [⟨chunkId, e⟩] })
  | none => (chunkId, st1)

/-! ### Similarity search (VectorStore.findSimilar) -/

structure SearchResult where
  content : Option (List Char)
  url : Option String
  title : Option String
  distance : Rat
deriving DecidableEq, Repr

/-- Squared Euclidean distance (order-equivalent to the metric used by the
`vec0` index). -/
def sqDist (a b : Vec) : Rat :=
  (a.zipWith (fun x y => (x - y) * (x - y)) b).foldl (· + ·) 0

/-- The rowids the `findSimilar` query selects, nearest first and truncated
to the limit. -/
def findSimilarRowids (st : StoreState) (q : Vec) (limit : Nat) : List Nat :=
  (((st.vec_chunks.map (fun v => (v.rowid, sqDist v.embedding q))).insertionSort
      (fun a b => a.2 ≤ b.2)).take limit).map (·.1)

/-- Model of `findSimilar`: nearest rows of `vec_chunks` LEFT JOINed with the
`chunks` table on `chunks.id = vec_chunks.rowid`; an unmatched rowid yields a
result row whose three joined columns are all NULL. -/
def findSimilar (st : StoreState) (q : Vec) (limit : Nat) : List SearchResult :=
  (((st.vec_chunks.map (fun v => (v.rowid, sqDist v.embedding q))).insertionSort
      (fun a b => a.2 ≤ b.2)).take limit).map
    fun rd =>
      match st.chunks.find? (fun c => decide (c.id = rd.1)) with
      | some c => ⟨some c.content, some c.url, some c.title, rd.2⟩
      | none => ⟨none, none, none, rd.2⟩

/-! ### Orchestrator (packages/cli/src/commands/connect.ts, addToServer) -/

/-- Model of `addToServer` acting on one server store.  The crawler is an
external collaborator, so the crawl result `documents` is a parameter, and
the embedding provider is passed to `generateEmbeddings`.  The `process.exit`
paths (missing pending crawl state for `--continue`, empty crawl) and a
propagated embedding failure are modelled as `none`.  The `config.json`
bookkeeping has no effect on the store and is omitted. -/
def addToServer (st : StoreState) (url : String) (documents : List CrawledDocument)
    (provider : Nat → Nat → ProviderResponse) (maxPages : Nat) (now : String)
    (force cont : Bool) : Option StoreState :=
  let existingSource := findSourceByUrl st url
  let step1 : Option (Nat × StoreState × Bool) :=
    match existingSource, force with
    | some src, false =>
      if cont then
        match getCrawlState st src.id with
        | some cs => if cs.pendingUrls.length ≠ 0 then some (src.id, st, false) else none
        | none => none
      else
        some (src.id, (deleteChunksForSource st src.id).2, true)
    | _, _ =>
      let r := getOrCreateSource st url now
      some (r.1, r.2, false)
  match step1 with
  | none => none
  | some (sourceId, st1, isUpdate) =>
    if documents.length = 0 then none
    else
      let maxPagesReached := decide (documents.length ≥ maxPages)
      let chunks := chunkDocuments documents
      match (generateEmbeddings chunks provider).embedded with
      | none => none
      | some echunks =>
        let st2 := echunks.foldl
          (fun acc ch => (insertChunkWithEmbedding acc ch sourceId).2) st1
        let pageCount := (echunks.map (·.url)).dedup.length
        let st3 := updateSourceMetadata st2 sourceId pageCount echunks.length
        let st4 := if isUpdate then rebuildVectorTable st3 else st3
        let st5 := if !maxPagesReached then clearCrawlState st4 sourceId else st4
        some st5

/-! ### Chunk loop properties -/

/-- Every chunk emitted by the splitting loop has trimmed length above 50
(the emission guard) and at most `charSize + 1` (a sentence boundary can sit
exactly at the tentative end, adding one character). -/
theorem chunkLoop_bounds (text : List Char) (url title : String) :
    ∀ fuel start chunkIndex, ∀ ch ∈ chunkLoop text url title fuel start chunkIndex,
      50 < ch.content.length ∧ ch.content.length ≤ charSize + 1 := by
  intro fuel
  induction fuel with
  | zero =>
    intro start chunkIndex ch hch
    simp [chunkLoop] at hch
  | succ fuel ih =>
    intro start chunkIndex ch hch
    rw [chunkLoop] at hch
    by_cases hlt : start < text.length
    · rw [if_pos hlt] at hch
      simp only [] at hch
      set end1 :=
        if start + charSize < text.length then
          if max (lastIndexOf text '.' (start + charSize))
              (lastIndexOf text '\n' (start + charSize)) >
              (start : Int) + (charSize / 2 : Nat) then
            ((max (lastIndexOf text '.' (start + charSize))
              (lastIndexOf text '\n' (start + charSize))) + 1).toNat
          else start + charSize
        else start + charSize with hend1
      have hend1le : end1 ≤ start + charSize + 1 := by
        rw [hend1]
        by_cases h1 : start + charSize < text.length
        · rw [if_pos h1]
          by_cases h2 : max (lastIndexOf text '.' (start + charSize))
              (lastIndexOf text '\n' (start + charSize)) >
              (start : Int) + (charSize / 2 : Nat)
          · rw [if_pos h2]
            have hb1 := lastIndexOf_le text '.' (start + charSize)
            have hb2 := lastIndexOf_le text '\n' (start + charSize)
            have hmax : max (lastIndexOf text '.' (start + charSize))
                (lastIndexOf text '\n' (start + charSize)) ≤ (start + charSize : Int) := by
              omega
            omega
          · rw [if_neg h2]
            omega
        · rw [if_neg h1]
          omega
      have hlen : (trimChars (sliceChars text start end1)).length ≤ charSize + 1 := by
        calc (trimChars (sliceChars text start end1)).length
            ≤ (sliceChars text start end1).length := length_trimChars_le _
          _ ≤ end1 - start := length_sliceChars_le _ _ _
          _ ≤ charSize + 1 := by omega
      by_cases hemit : (trimChars (sliceChars text start end1)).length > 50
      · rw [if_pos hemit] at hch
        rcases List.mem_cons.mp hch with hh | hh
        · subst hh
          exact ⟨hemit, hlen⟩
        · exact ih _ _ ch hh
      · rw [if_neg hemit] at hch
        exact ih _ _ ch hch
    · rw [if_neg hlt] at hch
      simp at hch

/-- The fuel argument of `chunkLoop` is irrelevant once it covers the
remaining text, because each iteration advances `start` by at least one
character (in fact by more than 800); the loop in the source therefore
terminates and `chunkDoc` computes its exact output. -/
theorem chunkLoop_fuel_irrelevant (text : List Char) (url title : String) :
    ∀ f g start chunkIndex, text.length - start ≤ f → text.length - start ≤ g →
      chunkLoop text url title f start chunkIndex =
        chunkLoop text url title g start chunkIndex := by
  intro f
  induction f with
  | zero =>
    intro g start ci hf hg
    cases g with
    | zero => rfl
    | succ g =>
      rw [chunkLoop, chunkLoop, if_neg (by omega)]
  | succ f ih =>
    intro g start ci hf hg
    by_cases hlt : start < text.length
    · cases g with
      | zero => omega
      | succ g =>
        rw [chunkLoop, chunkLoop, if_pos hlt, if_pos hlt]
        simp only []
        have hcs : charSize = 2000 := rfl
        have hco : charOverlap = 200 := rfl
        set end1 :=
          if start + charSize < text.length then
            if max (lastIndexOf text '.' (start + charSize))
                (lastIndexOf text '\n' (start + charSize)) >
                (start : Int) + (charSize / 2 : Nat) then
              ((max (lastIndexOf text '.' (start + charSize))
                (lastIndexOf text '\n' (start + charSize))) + 1).toNat
            else start + charSize
          else start + charSize with hend1
        have hlow : start + 802 ≤ end1 - charOverlap := by
          rw [hend1]
          by_cases h1 : start + charSize < text.length
          · rw [if_pos h1]
            by_cases h2 : max (lastIndexOf text '.' (start + charSize))
                (lastIndexOf text '\n' (start + charSize)) >
                (start : Int) + (charSize / 2 : Nat)
            · rw [if_pos h2]
              have h3 : ((start : Int) + (charSize / 2 : Nat)) + 1 ≤
                  max (lastIndexOf text '.' (start + charSize))
                    (lastIndexOf text '\n' (start + charSize)) + 1 := by omega
              omega
            · rw [if_neg h2]
              omega
          · rw [if_neg h1]
            omega
        by_cases hemit : (trimChars (sliceChars text start end1)).length > 50
        · rw [if_pos hemit, if_pos hemit]
          rw [ih g (end1 - charOverlap) (ci + 1) (by omega) (by omega)]
        · rw [if_neg hemit, if_neg hemit]
          rw [ih g (end1 - charOverlap) ci (by omega) (by omega)]
    · cases g with
      | zero =>
        rw [chunkLoop, chunkLoop, if_neg hlt]
      | succ g =>
        rw [chunkLoop, chunkLoop, if_neg hlt, if_neg hlt]

/-! ### Retry loop properties -/

/-- The wait the code computes from an optional retry-after hint and the
exponential backoff value. -/
def applyHint : Option Nat → Nat → Nat
  | some ms, d => max (ms + 100) d
  | none, d => d

theorem retryLoop_delays_spec (provider : Nat → ProviderResponse) :
    ∀ fuel retries i d, (retryLoop provider fuel retries).delays.get? i = some d →
      ∃ hint, provider (retries + i) = .rateLimited hint ∧
        d = applyHint hint (BASE_DELAY_MS * 2 ^ (retries + i)) := by
  intro fuel
  induction fuel with
  | zero =>
    intro retries i d hd
    simp [retryLoop] at hd
  | succ fuel ih =>
    intro retries i d hd
    rw [retryLoop] at hd
    by_cases h5 : retries < MAX_RETRIES
    · rw [if_pos h5] at hd
      cases hp : provider retries with
      | success embs =>
        rw [hp] at hd
        simp at hd
      | fatal =>
        rw [hp] at hd
        simp at hd
      | rateLimited hint =>
        rw [hp] at hd
        simp only [] at hd
        by_cases h6 : retries + 1 < MAX_RETRIES
        · rw [if_pos h6] at hd
          simp only [] at hd
          cases i with
          | zero =>
            rw [List.get?_cons_zero] at hd
            refine ⟨hint, by rw [Nat.add_zero]; exact hp, ?_⟩
            have hd2 := Option.some.inj hd
            rw [← hd2, Nat.add_zero]
            cases hint with
            | none => simp [applyHint]
            | some ms => simp [applyHint]
          | succ i =>
            rw [List.get?_cons_succ] at hd
            obtain ⟨h2, hph, hde⟩ := ih (retries + 1) i d hd
            refine ⟨h2, ?_, ?_⟩
            · rw [show retries + (i + 1) = retries + 1 + i by omega]
              exact hph
            · rw [show retries + (i + 1) = retries + 1 + i by omega]
              exact hde
        · rw [if_neg h6] at hd
          simp at hd
    · rw [if_neg h5] at hd
      simp at hd

/-- With a provider that rate-limits every attempt, the batch loop makes
exactly `MAX_RETRIES` calls, waits four times (the fifth failure raises
instead of sleeping), and ends in the distinguishable rate-limit failure. -/
theorem embedBatch_all_rateLimited (provider : Nat → ProviderResponse)
    (hint : Nat → Option Nat) (hrl : ∀ n, provider n = .rateLimited (hint n)) :
    embedBatch provider =
      ⟨MAX_RETRIES,
        [applyHint (hint 0) 1000, applyHint (hint 1) 2000,
         applyHint (hint 2) 4000, applyHint (hint 3) 8000],
        .rateLimitExceeded⟩ := by
  have e0 := hrl 0
  have e1 := hrl 1
  have e2 := hrl 2
  have e3 := hrl 3
  have e4 := hrl 4
  simp only [embedBatch, MAX_RETRIES, BASE_DELAY_MS, retryLoop, e0, e1, e2, e3, e4]
  cases h0 : hint 0 <;> cases h1 : hint 1 <;> cases h2 : hint 2 <;> cases h3 : hint 3 <;>
    simp [applyHint]

/-- A failing first batch aborts `generateEmbeddings` with exactly that
batch trace and no embedded chunks. -/
theorem generateEmbeddings_first_batch_fails (chunks : List DocumentChunk)
    (provider : Nat → Nat → ProviderResponse) (hc : chunks ≠ [])
    (houtcome : (embedBatch (provider 0)).outcome = .rateLimitExceeded) :
    generateEmbeddings chunks provider = ⟨[embedBatch (provider 0)], none⟩ := by
  obtain ⟨c, cs, rfl⟩ : ∃ c cs, chunks = c :: cs := by
    cases chunks with
    | nil => exact absurd rfl hc
    | cons a b => exact ⟨a, b, rfl⟩
  show embedGo provider (cs.length + 1) (c :: cs) 0 = ⟨[embedBatch (provider 0)], none⟩
  rw [embedGo]
  simp only [houtcome]

/-! ### Store operation properties -/

theorem insertChunk_sources (st : StoreState) (ch : DocumentChunk) (sid : Nat) :
    (insertChunkWithEmbedding st ch sid).2.sources = st.sources := by
  rw [insertChunkWithEmbedding]
  cases ch.embedding <;> rfl

theorem insertChunk_chunks (st : StoreState) (ch : DocumentChunk) (sid : Nat) :
    (insertChunkWithEmbedding st ch sid).2.chunks = st.chunks ++
      [⟨st.nextChunkId, ch.content, ch.url, ch.title, ch.chunkIndex, sid, ch.embedding⟩] := by
  rw [insertChunkWithEmbedding]
  cases ch.embedding <;> rfl

/-- Bulk insertion appends one row per embedded chunk, all owned by the given
source, without touching the sources table. -/
theorem foldl_insert_spec (sid : Nat) :
    ∀ (echunks : List DocumentChunk) (st : StoreState),
      ∃ newRows : List ChunkRow,
        (echunks.foldl (fun acc ch => (insertChunkWithEmbedding acc ch sid).2) st).chunks
          = st.chunks ++ newRows ∧
        newRows.map ChunkRow.source_id = echunks.map (fun _ => sid) ∧
        newRows.map ChunkRow.content = echunks.map DocumentChunk.content ∧
        (echunks.foldl (fun acc ch => (insertChunkWithEmbedding acc ch sid).2) st).sources
          = st.sources := by
  intro echunks
  induction echunks with
  | nil =>
    intro st
    exact ⟨[], by simp, rfl, rfl, rfl⟩
  | cons ch t ih =>
    intro st
    rw [List.foldl_cons]
    obtain ⟨rows, h1, h2, h3, h4⟩ := ih ((insertChunkWithEmbedding st ch sid).2)
    refine ⟨⟨st.nextChunkId, ch.content, ch.url, ch.title, ch.chunkIndex, sid,
      ch.embedding⟩ :: rows, ?_, ?_, ?_, ?_⟩
    · rw [h1, insertChunk_chunks, List.append_assoc]
      rfl
    · simp only [List.map_cons, h2, List.map_cons]
    · simp only [List.map_cons, h3, List.map_cons]
    · rw [h4, insertChunk_sources]

theorem updateSourceMetadata_idurl (st : StoreState) (sid pc cc : Nat) :
    (updateSourceMetadata st sid pc cc).sources.map (fun r => (r.id, r.url)) =
      st.sources.map (fun r => (r.id, r.url)) := by
  simp only [updateSourceMetadata, List.map_map]
  apply List.map_congr_left
  intro r _
  by_cases h : r.id = sid <;> simp [h]

theorem clearCrawlState_idurl (st : StoreState) (sid : Nat) :
    (clearCrawlState st sid).sources.map (fun r => (r.id, r.url)) =
      st.sources.map (fun r => (r.id, r.url)) := by
  simp only [clearCrawlState, List.map_map]
  apply List.map_congr_left
  intro r _
  by_cases h : r.id = sid <;> simp [h]

theorem findSourceByUrl_normalized {st : StoreState} {url : String} {s : SourceRow}
    (h : findSourceByUrl st url = some s) : normalizeUrl s.url = normalizeUrl url := by
  have h2 := List.find?_some h
  simpa using h2

theorem cond_clear_facts (st : StoreState) (b : Bool) (sid : Nat) :
    ((if b then clearCrawlState st sid else st).chunks = st.chunks) ∧
    ((if b then clearCrawlState st sid else st).vec_chunks = st.vec_chunks) ∧
    ((if b then clearCrawlState st sid else st).sources.map (fun r => (r.id, r.url)) =
      st.sources.map (fun r => (r.id, r.url))) := by
  cases b
  · exact ⟨rfl, rfl, rfl⟩
  · exact ⟨rfl, rfl, clearCrawlState_idurl st sid⟩

/-- Claim C1: `addToServer` without `force` on a URL whose normalized form
matches an already registered source (the lookup goes through
`normalizeUrl`, never raw string equality) keeps the sources table exactly
as it was (same length, same ids and urls), deletes the matched source's old
chunks, inserts the freshly embedded chunks under that same unchanged
source id, and rebuilds the similarity index from the resulting chunk
table. -/
theorem claim_C1_add_without_force (st : StoreState) (s : SourceRow) (url : String)
    (docs : List CrawledDocument) (provider : Nat → Nat → ProviderResponse)
    (maxPages : Nat) (now : String) (ec : List DocumentChunk)
    (hfind : findSourceByUrl st url = some s)
    (hdocs : docs.length ≠ 0)
    (hembed : (generateEmbeddings (chunkDocuments docs) provider).embedded = some ec) :
    ∃ st', addToServer st url docs provider maxPages now false false = some st' ∧
      st'.sources.map (fun r => (r.id, r.url)) = st.sources.map (fun r => (r.id, r.url)) ∧
      st'.sources.length = st.sources.length ∧
      normalizeUrl s.url = normalizeUrl url ∧
      st'.vec_chunks = rebuiltVec st'.chunks ∧
      ∃ newRows,
        st'.chunks = st.chunks.filter (fun c => !decide (c.source_id = s.id)) ++ newRows ∧
        newRows.map ChunkRow.source_id = ec.map (fun _ => s.id) ∧
        newRows.map ChunkRow.content = ec.map DocumentChunk.content := by
  simp only [addToServer, hfind]
  simp only [Bool.false_eq_true, if_false]
  rw [if_neg hdocs, hembed]
  simp only [if_true]
  set st1 := (deleteChunksForSource st s.id).2 with hst1
  set st2 := ec.foldl (fun acc ch => (insertChunkWithEmbedding acc ch s.id).2) st1 with hst2
  set st3 := updateSourceMetadata st2 s.id ((ec.map (·.url)).dedup.length) ec.length
    with hst3
  set st4 := rebuildVectorTable st3 with hst4
  set b := !decide (docs.length ≥ maxPages) with hb
  refine ⟨_, rfl, ?_, ?_, findSourceByUrl_normalized hfind, ?_, ?_⟩
  · -- sources (id, url) preserved through the whole pipeline
    rw [(cond_clear_facts st4 b s.id).2.2]
    have h4 : st4.sources = st3.sources := rfl
    rw [h4, updateSourceMetadata_idurl]
    obtain ⟨rows, _, _, _, hsrc⟩ := foldl_insert_spec s.id ec st1
    rw [← hst2] at hsrc
    rw [hsrc]
    rfl
  · -- length follows from the (id, url) projection
    have h2 : (if b then clearCrawlState st4 s.id else st4).sources.map
        (fun r => (r.id, r.url)) = st.sources.map (fun r => (r.id, r.url)) := by
      rw [(cond_clear_facts st4 b s.id).2.2]
      have h4 : st4.sources = st3.sources := rfl
      rw [h4, updateSourceMetadata_idurl]
      obtain ⟨rows, _, _, _, hsrc⟩ := foldl_insert_spec s.id ec st1
      rw [← hst2] at hsrc
      rw [hsrc]
      rfl
    have h3 := congrArg List.length h2
    simpa using h3
  · -- the index is the rebuild of the final chunk table
    rw [(cond_clear_facts st4 b s.id).2.1, (cond_clear_facts st4 b s.id).1]
    rfl
  · -- old chunks of the matched source removed, new rows appended under its id
    obtain ⟨rows, hchunks, hsid, hcontent, _⟩ := foldl_insert_spec s.id ec st1
    rw [← hst2] at hchunks
    refine ⟨rows, ?_, hsid, hcontent⟩
    rw [(cond_clear_facts st4 b s.id).1]
    have h4 : st4.chunks = st3.chunks := rfl
    have h3 : st3.chunks = st2.chunks := rfl
    rw [h4, h3, hchunks]
    rfl

instance : IsTotal ChunkRow (fun a b => a.id ≤ b.id) :=
  ⟨fun a b => Nat.le_total a.id b.id⟩

instance : IsTrans ChunkRow (fun a b => a.id ≤ b.id) :=
  ⟨fun _ _ _ hab hbc => Nat.le_trans hab hbc⟩

theorem filterMap_embed_rowids :
    ∀ l : List ChunkRow, (∀ c ∈ l, c.embedding_blob.isSome = true) →
      (l.filterMap fun c =>
        match c.embedding_blob with
        | some e => some (⟨c.id, e⟩ : VecRow)
        | none => none).map VecRow.rowid = l.map ChunkRow.id := by
  intro l
  induction l with
  | nil => intro _; rfl
  | cons c t ih =>
    intro hall
    have hc := hall c (List.mem_cons_self c t)
    obtain ⟨e, he⟩ := Option.isSome_iff_exists.mp hc
    rw [List.filterMap_cons, he]
    simp only [List.map_cons]
    rw [ih (fun x hx => hall x (List.mem_cons_of_mem c hx))]

theorem rebuiltVec_rowids (chunks : List ChunkRow) :
    (rebuiltVec chunks).map VecRow.rowid =
      ((chunks.filter (fun c => c.embedding_blob.isSome)).insertionSort
        (fun a b => a.id ≤ b.id)).map ChunkRow.id := by
  rw [rebuiltVec]
  apply filterMap_embed_rowids
  intro c hc
  have h2 := (List.mem_insertionSort (fun (a b : ChunkRow) => a.id ≤ b.id)).mp hc
  exact (List.mem_filter.mp h2).2

/-- The rebuilt index lists exactly the ids of embedded chunk rows. -/
theorem rebuiltVec_rowids_perm (chunks : List ChunkRow) :
    ((rebuiltVec chunks).map VecRow.rowid).Perm
      ((chunks.filter (fun c => c.embedding_blob.isSome)).map ChunkRow.id) := by
  rw [rebuiltVec_rowids]
  exact (List.perm_insertionSort (fun (a b : ChunkRow) => a.id ≤ b.id) _).map ChunkRow.id

/-- The rebuilt index is populated in ascending chunk-id order. -/
theorem rebuiltVec_rowids_sorted (chunks : List ChunkRow) :
    List.Sorted (· ≤ ·) ((rebuiltVec chunks).map VecRow.rowid) := by
  rw [rebuiltVec_rowids, List.Sorted, List.pairwise_map]
  exact List.sorted_insertionSort (fun (a b : ChunkRow) => a.id ≤ b.id) _

/-- Behavior checks of the URL model on concrete inputs. -/
theorem normalizeUrl_behavior_checks :
    normalizeUrl "HTTP://Docs.Example.com/" = "http://docs.example.com/" ∧
    normalizeUrl "http://docs.example.com" = "http://docs.example.com/" ∧
    normalizeUrl "http://x.com/a?utm_source=1&b=2#frag" = "http://x.com/a?b=2#frag" ∧
    normalizeUrl "not a url/" = "not a url" := by decide

/-! ## Claims -/

/-- Claim C7: `normalizeUrl` is idempotent — for every input string,
normalizing twice yields the same string as normalizing once.  The model is
a pure Lean function, so determinism and freedom from side effects hold by
construction. -/
theorem claim_C7_normalizeUrl_idempotent (u : String) :
    normalizeUrl (normalizeUrl u) = normalizeUrl u := by
  rw [normalizeUrl, normalizeUrl]
  have h : (⟨normalizeUrlChars u.toList⟩ : String).toList = normalizeUrlChars u.toList := rfl
  rw [h, normalizeUrlChars_idem]

/-- Pathname rule as the specification words it: remove a single trailing
slash, keeping the root path `/`.  Second definition used only to compare
the specification text against the code model. -/
def stripOneTrailingSlash (l : List Char) : List Char :=
  match l.getLast? with
  | some c => if c = '/' then l.dropLast else l
  | none => l

/-- Single-slash reading of the specification text of the URL normalizer:
lowercase the host, strip one trailing slash (root stays `/`), drop the
`utm_*` parameters, keep everything else, with the same fallback. -/
def normalizeUrlSpecChars (u : List Char) : List Char :=
  match parseUrl u with
  | some p =>
    serializeUrl ⟨p.scheme, p.host.map Char.toLower,
      (if (stripOneTrailingSlash p.pathname).isEmpty then ['/']
       else stripOneTrailingSlash p.pathname),
      p.params.filter (fun kv => !isUtmKey kv.1), p.fragment⟩
  | none => stripTrailingSlashes (u.map Char.toLower)

/-- Claim C8 counterexample: on `http://example.com/a//` the code removes
the whole run of trailing slashes, while the claimed single-slash rule
leaves `http://example.com/a/`. -/
theorem claim_C8_counterexample :
    normalizeUrlChars "http://example.com/a//".toList = "http://example.com/a".toList ∧
    normalizeUrlSpecChars "http://example.com/a//".toList = "http://example.com/a/".toList ∧
    "http://example.com/a".toList ≠ "http://example.com/a/".toList := by decide

/-- Claim C8 (amended): `normalizeUrl` is total; on a URL the model parses
it lowercases the host, strips ALL trailing slashes from the path (the root
path stays `/`), removes exactly the `utm_source`, `utm_medium` and
`utm_campaign` query parameters, and preserves scheme, remaining query and
fragment — shown by reparsing the normalized output; on any other input it
falls back to lowercasing plus trailing-slash stripping. -/
theorem claim_C8_normalizeUrl_components (u : List Char) :
    (∀ p, parseUrl u = some p →
      ∃ p2, parseUrl (normalizeUrlChars u) = some p2 ∧
        p2.scheme = p.scheme ∧
        p2.host = p.host.map Char.toLower ∧
        p2.pathname = (if (stripTrailingSlashes p.pathname).isEmpty then ['/']
          else stripTrailingSlashes p.pathname) ∧
        p2.params = p.params.filter (fun kv => !isUtmKey kv.1) ∧
        p2.fragment = p.fragment) ∧
    (parseUrl u = none →
      normalizeUrlChars u = stripTrailingSlashes (u.map Char.toLower)) := by
  constructor
  · intro p hp
    refine ⟨normParts p, ?_, rfl, rfl, rfl, rfl, rfl⟩
    have h1 : normalizeUrlChars u = serializeUrl (normParts p) := by
      rw [normalizeUrlChars, hp]
    rw [h1]
    exact parseUrl_serializeUrl (normParts_wf (parseUrl_wf hp))
  · intro hp
    rw [normalizeUrlChars, hp]

/-- Claim C8 witness: the amended component description evaluated on a
concrete URL carrying an uppercase host, a trailing slash, a `utm_source`
parameter, and a fragment. -/
theorem claim_C8_witness :
    parseUrl "HTTP://EX.com/a/?utm_source=1&b=2#f".toList =
      some ⟨"http".toList, "EX.com".toList, "/a/".toList,
        [("utm_source".toList, "1".toList), ("b".toList, "2".toList)],
        some "f".toList⟩ ∧
    (∃ p2, parseUrl (normalizeUrlChars "HTTP://EX.com/a/?utm_source=1&b=2#f".toList) =
        some p2 ∧
      p2.scheme = "http".toList ∧
      p2.host = ("EX.com".toList).map Char.toLower ∧
      p2.pathname = (if (stripTrailingSlashes "/a/".toList).isEmpty then ['/']
        else stripTrailingSlashes "/a/".toList) ∧
      p2.params = ([("utm_source".toList, "1".toList),
        ("b".toList, "2".toList)].filter (fun kv => !isUtmKey kv.1)) ∧
      p2.fragment = some "f".toList) := by
  refine ⟨by decide, ?_⟩
  exact (claim_C8_normalizeUrl_components "HTTP://EX.com/a/?utm_source=1&b=2#f".toList).1
    ⟨"http".toList, "EX.com".toList, "/a/".toList,
      [("utm_source".toList, "1".toList), ("b".toList, "2".toList)],
      some "f".toList⟩ (by decide)

/-- Claim C9: `insertChunkWithEmbedding` appends exactly one row to the
chunk table with the assigned auto-increment id, returns that id, and
appends a similarity-index entry keyed by the same id exactly when the chunk
carries an embedding — so a chunk with no embedding is never inserted into
the similarity index; the sources table is untouched. -/
theorem claim_C9_insertChunk_spec (st : StoreState) (chunk : DocumentChunk)
    (sourceId : Nat) :
    (insertChunkWithEmbedding st chunk sourceId).1 = st.nextChunkId ∧
    (insertChunkWithEmbedding st chunk sourceId).2.chunks =
      st.chunks ++ [⟨st.nextChunkId, chunk.content, chunk.url, chunk.title,
        chunk.chunkIndex, sourceId, chunk.embedding⟩] ∧
    (insertChunkWithEmbedding st chunk sourceId).2.vec_chunks =
      st.vec_chunks ++
        (match chunk.embedding with
          | some e => [⟨st.nextChunkId, e⟩]
          | none => []) ∧
    (insertChunkWithEmbedding st chunk sourceId).2.nextChunkId = st.nextChunkId + 1 ∧
    (insertChunkWithEmbedding st chunk sourceId).2.sources = st.sources := by
  cases hch : chunk.embedding with
  | none => simp [insertChunkWithEmbedding, hch]
  | some e => simp [insertChunkWithEmbedding, hch]

/-- Claim C3: after deleting a source's chunks and rebuilding, the
similarity index holds exactly the ids of the remaining chunk rows with a
stored embedding, in ascending id order, and neither the selected rowids nor
the joined results of `findSimilar` can belong to the deleted source. -/
theorem claim_C3_rebuild_consistency (st : StoreState) (sourceId : Nat)
    (q : Vec) (k : Nat) :
    ((rebuildVectorTable (deleteChunksForSource st sourceId).2).vec_chunks.map
        VecRow.rowid).Perm
      (((rebuildVectorTable (deleteChunksForSource st sourceId).2).chunks.filter
        (fun c => c.embedding_blob.isSome)).map ChunkRow.id) ∧
    List.Sorted (· ≤ ·)
      ((rebuildVectorTable (deleteChunksForSource st sourceId).2).vec_chunks.map
        VecRow.rowid) ∧
    (∀ c ∈ (rebuildVectorTable (deleteChunksForSource st sourceId).2).chunks,
      c.source_id ≠ sourceId) ∧
    (∀ rid ∈ findSimilarRowids (rebuildVectorTable
        (deleteChunksForSource st sourceId).2) q k,
      ∀ c ∈ (rebuildVectorTable (deleteChunksForSource st sourceId).2).chunks,
        c.id = rid → c.source_id ≠ sourceId) ∧
    (∀ r ∈ findSimilar (rebuildVectorTable (deleteChunksForSource st sourceId).2) q k,
      ∀ c ∈ (rebuildVectorTable (deleteChunksForSource st sourceId).2).chunks,
        r.content = some c.content → c.source_id ≠ sourceId) := by
  have hmem : ∀ c ∈ (rebuildVectorTable (deleteChunksForSource st sourceId).2).chunks,
      c.source_id ≠ sourceId := by
    intro c hc
    have h2 := (List.mem_filter.mp hc).2
    simpa using h2
  refine ⟨?_, ?_, hmem, ?_, ?_⟩
  · exact rebuiltVec_rowids_perm _
  · exact rebuiltVec_rowids_sorted _
  · intro rid _ c hc _
    exact hmem c hc
  · intro r _ c hc _
    exact hmem c hc

/-- Claim C3 witness: a two-source store where source 1 is deleted; the
rebuilt index keeps exactly the embedded chunk of source 2, in order, and a
query returns nothing belonging to source 1. -/
theorem claim_C3_witness :
    ((rebuildVectorTable (deleteChunksForSource
        ⟨[], [⟨1, "a".toList, "u", "t", 0, 1, some [1]⟩,
              ⟨2, "b".toList, "u2", "t2", 0, 2, some [2]⟩,
              ⟨3, "c".toList, "u2", "t2", 1, 2, none⟩], [⟨1, [1]⟩, ⟨2, [2]⟩], 3, 4⟩
        1).2).vec_chunks.map VecRow.rowid).Perm [2] ∧
    (∀ c ∈ (rebuildVectorTable (deleteChunksForSource
        ⟨[], [⟨1, "a".toList, "u", "t", 0, 1, some [1]⟩,
              ⟨2, "b".toList, "u2", "t2", 0, 2, some [2]⟩,
              ⟨3, "c".toList, "u2", "t2", 1, 2, none⟩], [⟨1, [1]⟩, ⟨2, [2]⟩], 3, 4⟩
        1).2).chunks, c.source_id ≠ 1) := by
  have h := claim_C3_rebuild_consistency
    ⟨[], [⟨1, "a".toList, "u", "t", 0, 1, some [1]⟩,
          ⟨2, "b".toList, "u2", "t2", 0, 2, some [2]⟩,
          ⟨3, "c".toList, "u2", "t2", 1, 2, none⟩], [⟨1, [1]⟩, ⟨2, [2]⟩], 3, 4⟩
    1 [1] 5
  refine ⟨?_, h.2.2.1⟩
  have h2 := h.1
  have h3 : ((rebuildVectorTable (deleteChunksForSource
      ⟨[], [⟨1, "a".toList, "u", "t", 0, 1, some [1]⟩,
            ⟨2, "b".toList, "u2", "t2", 0, 2, some [2]⟩,
            ⟨3, "c".toList, "u2", "t2", 1, 2, none⟩], [⟨1, [1]⟩, ⟨2, [2]⟩], 3, 4⟩
      1).2).chunks.filter (fun c => c.embedding_blob.isSome)).map ChunkRow.id = [2] := by
    decide
  rw [h3] at h2
  exact h2

/-- Claim C10: with a stale similarity index containing a rowid whose chunk
row no longer exists, `findSimilar` neither fails nor skips the entry: when
the limit covers the index, the dangling rowid surfaces as a result whose
joined content, url and title are all NULL. -/
theorem claim_C10_dangling_rowid_nulls (st : StoreState) (rid : Nat) (e : Vec)
    (q : Vec) (k : Nat)
    (hmem : (⟨rid, e⟩ : VecRow) ∈ st.vec_chunks)
    (hdangling : ∀ c ∈ st.chunks, c.id ≠ rid)
    (hk : st.vec_chunks.length ≤ k) :
    ∃ r ∈ findSimilar st q k, r.content = none ∧ r.url = none ∧ r.title = none ∧
      r.distance = sqDist e q := by
  have hpair : (rid, sqDist e q) ∈
      st.vec_chunks.map (fun v => (v.rowid, sqDist v.embedding q)) :=
    List.mem_map.mpr ⟨⟨rid, e⟩, hmem, rfl⟩
  have hsorted : (rid, sqDist e q) ∈
      (st.vec_chunks.map (fun v => (v.rowid, sqDist v.embedding q))).insertionSort
        (fun a b => a.2 ≤ b.2) :=
    (List.mem_insertionSort (fun (a b : Nat × Rat) => a.2 ≤ b.2)).mpr hpair
  have hlen : ((st.vec_chunks.map (fun v => (v.rowid, sqDist v.embedding q))).insertionSort
      (fun a b => a.2 ≤ b.2)).length ≤ k := by
    rw [(List.perm_insertionSort (fun (a b : Nat × Rat) => a.2 ≤ b.2) _).length_eq,
      List.length_map]
    exact hk
  have hfind : st.chunks.find? (fun c => decide (c.id = rid)) = none := by
    rw [List.find?_eq_none]
    intro c hc
    simpa using hdangling c hc
  refine ⟨⟨none, none, none, sqDist e q⟩, ?_, rfl, rfl, rfl, rfl⟩
  rw [findSimilar, List.take_of_length_le hlen]
  apply List.mem_map.mpr
  refine ⟨(rid, sqDist e q), hsorted, ?_⟩
  show (match st.chunks.find? (fun c => decide (c.id = rid)) with
    | some c => (⟨some c.content, some c.url, some c.title, sqDist e q⟩ : SearchResult)
    | none => ⟨none, none, none, sqDist e q⟩) = ⟨none, none, none, sqDist e q⟩
  rw [hfind]

/-- Claim C10 witness: a store whose chunk table is empty while the index
still holds rowid 7; the query returns the all-NULL joined row. -/
theorem claim_C10_witness :
    ((⟨7, [1]⟩ : VecRow) ∈ (⟨[], [], [⟨7, [1]⟩], 1, 1⟩ : StoreState).vec_chunks ∧
      (∀ c ∈ (⟨[], [], [⟨7, [1]⟩], 1, 1⟩ : StoreState).chunks, c.id ≠ 7) ∧
      (⟨[], [], [⟨7, [1]⟩], 1, 1⟩ : StoreState).vec_chunks.length ≤ 1) ∧
    ∃ r ∈ findSimilar (⟨[], [], [⟨7, [1]⟩], 1, 1⟩ : StoreState) [0] 1,
      r.content = none ∧ r.url = none ∧ r.title = none ∧
        r.distance = sqDist [1] [0] :=
  ⟨⟨by decide, by decide, by decide⟩,
    claim_C10_dangling_rowid_nulls ⟨[], [], [⟨7, [1]⟩], 1, 1⟩ 7 [1] [0] 1
      (by decide) (by decide) (by decide)⟩

/-- Claim C4 counterexample: a document shorter than the window is emitted
as a single chunk with its untouched content, here 5 characters — far below
the claimed lower bound of 50. -/
theorem claim_C4_counterexample :
    chunkDocuments [⟨"http://u", "t", "short".toList⟩] =
      [⟨"short".toList, "http://u", "t", 0, none⟩] ∧
    ("short".toList).length < 50 := by decide

/-- Claim C4 (amended): every chunk emitted by `chunkDocuments` has content
length at most `charSize + 1`; a document whose content fits the window
yields exactly one chunk with index 0 carrying the untouched content —
neither trimmed nor length-checked, so chunks shorter than 50 characters are
emitted; the lower bound 50 (on trimmed content) holds exactly for the
chunks produced by the long-document splitting loop. -/
theorem claim_C4_chunk_bounds (documents : List CrawledDocument) :
    (∀ ch ∈ chunkDocuments documents, ch.content.length ≤ charSize + 1) ∧
    (∀ doc ∈ documents, doc.content.length ≤ charSize →
      chunkDoc doc = [⟨doc.content, doc.url, doc.title, 0, none⟩]) ∧
    (∀ doc ∈ documents, charSize < doc.content.length →
      ∀ ch ∈ chunkDoc doc, 50 < ch.content.length ∧ ch.content.length ≤ charSize + 1) := by
  refine ⟨?_, ?_, ?_⟩
  · intro ch hch
    rw [chunkDocuments] at hch
    obtain ⟨l, hl, hchl⟩ := List.mem_flatten.mp hch
    obtain ⟨doc, hdoc, rfl⟩ := List.mem_map.mp hl
    by_cases hlen : doc.content.length ≤ charSize
    · rw [chunkDoc, if_pos hlen] at hchl
      rcases List.mem_singleton.mp hchl with rfl
      exact Nat.le_trans hlen (Nat.le_succ _)
    · rw [chunkDoc, if_neg hlen] at hchl
      exact (chunkLoop_bounds doc.content doc.url doc.title _ _ _ ch hchl).2
  · intro doc _ hlen
    rw [chunkDoc, if_pos hlen]
  · intro doc _ hlen ch hch
    rw [chunkDoc, if_neg (Nat.not_le.mpr hlen)] at hch
    exact chunkLoop_bounds doc.content doc.url doc.title _ _ _ ch hch

/-- Claim C4 witness: the short-document branch on a 4-character document. -/
theorem claim_C4_witness :
    ((⟨"http://u", "t", "tiny".toList⟩ : CrawledDocument) ∈
        [(⟨"http://u", "t", "tiny".toList⟩ : CrawledDocument)] ∧
      ("tiny".toList).length ≤ charSize) ∧
    chunkDoc ⟨"http://u", "t", "tiny".toList⟩ =
      [⟨"tiny".toList, "http://u", "t", 0, none⟩] :=
  ⟨⟨by decide, by decide⟩,
    (claim_C4_chunk_bounds [⟨"http://u", "t", "tiny".toList⟩]).2.1
      ⟨"http://u", "t", "tiny".toList⟩ (by decide) (by decide)⟩

/-- Every wait the code computes is at least the exponential backoff value. -/
theorem applyHint_ge (h : Option Nat) (d : Nat) : d ≤ applyHint h d := by
  cases h with
  | none => exact Nat.le_refl d
  | some ms => exact Nat.le_max_right (ms + 100) d

/-- A provider that rate-limits every attempt, with a huge retry-after hint
on the very first attempt only. -/
def provC5 : Nat → Nat → ProviderResponse :=
  fun _ n => .rateLimited (if n = 0 then some 1000000 else none)

/-- Claim C5 counterexample: a large retry-after hint on the first attempt
makes the first wait (1000100 ms) exceed the second (2000 ms), so the
inter-attempt delays are not monotonically non-decreasing. -/
theorem claim_C5_counterexample :
    generateEmbeddings [(⟨"c".toList, "u", "t", 0, none⟩ : DocumentChunk)] provC5 =
      ⟨[⟨MAX_RETRIES, [1000100, 2000, 4000, 8000], .rateLimitExceeded⟩], none⟩ ∧
    ¬ ((1000100 : Nat) ≤ 2000) := by decide

/-- Claim C5 (amended): with every attempt rate-limited, `generateEmbeddings`
makes exactly `MAX_RETRIES` provider attempts for the batch and propagates
the distinguishable rate-limit failure (`embedded = none`) instead of
silently skipping the batch; every inter-attempt delay is at least its
exponential backoff value, and the delays are monotonically non-decreasing
when no retry-after hints are supplied — but not in general, since a
sufficiently large early hint can exceed a later backoff. -/
theorem claim_C5_retry_budget (chunks : List DocumentChunk)
    (provider : Nat → Nat → ProviderResponse) (hint : Nat → Option Nat)
    (hc : chunks ≠ [])
    (hrl : ∀ b n, provider b n = .rateLimited (hint n)) :
    generateEmbeddings chunks provider =
      ⟨[⟨MAX_RETRIES,
          [applyHint (hint 0) 1000, applyHint (hint 1) 2000,
           applyHint (hint 2) 4000, applyHint (hint 3) 8000],
          .rateLimitExceeded⟩], none⟩ ∧
    (BASE_DELAY_MS * 2 ^ 0 ≤ applyHint (hint 0) 1000 ∧
     BASE_DELAY_MS * 2 ^ 1 ≤ applyHint (hint 1) 2000 ∧
     BASE_DELAY_MS * 2 ^ 2 ≤ applyHint (hint 2) 4000 ∧
     BASE_DELAY_MS * 2 ^ 3 ≤ applyHint (hint 3) 8000) ∧
    ((∀ n, hint n = none) →
      List.Chain' (fun a b => a ≤ b)
        [applyHint (hint 0) 1000, applyHint (hint 1) 2000,
         applyHint (hint 2) 4000, applyHint (hint 3) 8000]) := by
  have hb := embedBatch_all_rateLimited (provider 0) hint (fun n => hrl 0 n)
  refine ⟨?_, ⟨?_, ?_, ?_, ?_⟩, ?_⟩
  · rw [generateEmbeddings_first_batch_fails chunks provider hc (by rw [hb]), hb]
  · have h := applyHint_ge (hint 0) 1000
    have e : BASE_DELAY_MS * 2 ^ 0 = 1000 := by decide
    omega
  · have h := applyHint_ge (hint 1) 2000
    have e : BASE_DELAY_MS * 2 ^ 1 = 2000 := by decide
    omega
  · have h := applyHint_ge (hint 2) 4000
    have e : BASE_DELAY_MS * 2 ^ 2 = 4000 := by decide
    omega
  · have h := applyHint_ge (hint 3) 8000
    have e : BASE_DELAY_MS * 2 ^ 3 = 8000 := by decide
    omega
  · intro hnone
    simp only [hnone, applyHint, List.chain'_cons, List.chain'_singleton]
    refine ⟨by omega, by omega, by omega, trivial⟩

/-- A provider that always rate-limits and never supplies a hint. -/
def provC5w : Nat → Nat → ProviderResponse := fun _ _ => .rateLimited none

def hintNone : Nat → Option Nat := fun _ => none

/-- Claim C5 witness: the hint-free all-rate-limited provider on one chunk. -/
theorem claim_C5_witness :
    (([(⟨"c".toList, "u", "t", 0, none⟩ : DocumentChunk)] : List DocumentChunk) ≠ [] ∧
     (∀ b n, provC5w b n = .rateLimited (hintNone n))) ∧
    generateEmbeddings [(⟨"c".toList, "u", "t", 0, none⟩ : DocumentChunk)] provC5w =
      ⟨[⟨MAX_RETRIES,
          [applyHint (hintNone 0) 1000, applyHint (hintNone 1) 2000,
           applyHint (hintNone 2) 4000, applyHint (hintNone 3) 8000],
          .rateLimitExceeded⟩], none⟩ :=
  ⟨⟨by decide, fun b n => rfl⟩,
    (claim_C5_retry_budget [⟨"c".toList, "u", "t", 0, none⟩] provC5w hintNone
      (by decide) (fun b n => rfl)).1⟩

/-- A provider that always rate-limits with a 5000 ms retry-after hint. -/
def provC6 : Nat → ProviderResponse := fun _ => .rateLimited (some 5000)

/-- Claim C6 counterexample: with a 5000 ms hint on the first attempt the
code waits 5100 ms (it adds 100 ms to the hint before taking the max), while
the claimed `max(hint, backoff)` is `max 5000 1000 = 5000`. -/
theorem claim_C6_counterexample :
    (embedBatch provC6).delays.get? 0 = some 5100 ∧
    max 5000 (BASE_DELAY_MS * 2 ^ 0) = 5000 ∧ (5100 : Nat) ≠ 5000 := by decide

/-- Claim C6 (amended): when attempt `i` of a batch is rate-limited with an
explicit retry-after hint `ms`, the wait before the next attempt equals
`max (ms + 100) backoff` — the code pads the hint by 100 ms — where backoff
is the exponential value for that retry; in particular the wait is never
less than the computed backoff minimum. -/
theorem claim_C6_hint_wait (provider : Nat → ProviderResponse) (i d ms : Nat)
    (hd : (embedBatch provider).delays.get? i = some d)
    (hh : provider i = .rateLimited (some ms)) :
    d = max (ms + 100) (BASE_DELAY_MS * 2 ^ i) ∧ BASE_DELAY_MS * 2 ^ i ≤ d := by
  obtain ⟨hint, hph, hde⟩ := retryLoop_delays_spec provider MAX_RETRIES 0 i d hd
  rw [Nat.zero_add] at hph hde
  have he : ProviderResponse.rateLimited (some ms) = ProviderResponse.rateLimited hint :=
    hh.symm.trans hph
  injection he with h2
  rw [← h2] at hde
  refine ⟨?_, ?_⟩
  · rw [hde]
    rfl
  · rw [hde]
    exact applyHint_ge (some ms) (BASE_DELAY_MS * 2 ^ i)

/-- Claim C6 witness: hint 5000 on attempt 0 gives wait 5100 = max 5100 1000. -/
theorem claim_C6_witness :
    ((embedBatch provC6).delays.get? 0 = some 5100 ∧
      provC6 0 = .rateLimited (some 5000)) ∧
    ((5100 : Nat) = max (5000 + 100) (BASE_DELAY_MS * 2 ^ 0) ∧
      BASE_DELAY_MS * 2 ^ 0 ≤ 5100) :=
  ⟨⟨by decide, rfl⟩, claim_C6_hint_wait provC6 0 5100 5000 (by decide) rfl⟩

/-- A store with one registered source (raw URL differing from the query URL
but normalizing the same) and one already-stored chunk. -/
def stC1 : StoreState :=
  ⟨[⟨1, "HTTP://Docs.Example.com/", "2024", 1, 1, none⟩],
   [⟨1, "old".toList, "http://docs.example.com/p", "T", 0, 1, some [1]⟩],
   [⟨1, [1]⟩], 2, 2⟩

def srcC1 : SourceRow := ⟨1, "HTTP://Docs.Example.com/", "2024", 1, 1, none⟩

def docsC1 : List CrawledDocument :=
  [⟨"http://docs.example.com/p", "T", "fresh content".toList⟩]

/-- A provider that succeeds immediately with one embedding per call. -/
def provOk : Nat → Nat → ProviderResponse := fun _ _ => .success [[1]]

def ecC1 : List DocumentChunk :=
  [⟨"fresh content".toList, "http://docs.example.com/p", "T", 0, some [1]⟩]

/-- Claim C1 witness: re-adding under a raw-distinct but
normalization-equal URL keeps the single source row and swaps its chunks. -/
theorem claim_C1_witness :
    (findSourceByUrl stC1 "http://docs.example.com" = some srcC1 ∧
     docsC1.length ≠ 0 ∧
     (generateEmbeddings (chunkDocuments docsC1) provOk).embedded = some ecC1) ∧
    (∃ st', addToServer stC1 "http://docs.example.com" docsC1 provOk 100 "now" false false
        = some st' ∧
      st'.sources.map (fun r => (r.id, r.url)) =
        stC1.sources.map (fun r => (r.id, r.url)) ∧
      st'.sources.length = stC1.sources.length ∧
      normalizeUrl srcC1.url = normalizeUrl "http://docs.example.com" ∧
      st'.vec_chunks = rebuiltVec st'.chunks ∧
      ∃ newRows,
        st'.chunks =
          stC1.chunks.filter (fun c => !decide (c.source_id = srcC1.id)) ++ newRows ∧
        newRows.map ChunkRow.source_id = ecC1.map (fun _ => srcC1.id) ∧
        newRows.map ChunkRow.content = ecC1.map DocumentChunk.content) :=
  ⟨⟨by decide, by decide, by decide⟩,
    claim_C1_add_without_force stC1 srcC1 "http://docs.example.com" docsC1 provOk 100
      "now" ecC1 (by decide) (by decide) (by decide)⟩

/-- A store with one registered source and one stored chunk, queried again
under the very same URL. -/
def stC2 : StoreState :=
  ⟨[⟨1, "http://a.com", "2024", 1, 1, none⟩],
   [⟨1, "old".toList, "http://a.com/p", "T", 0, 1, some [1]⟩],
   [⟨1, [1]⟩], 2, 2⟩

def docsC2 : List CrawledDocument :=
  [⟨"http://a.com/p", "T", "fresh stuff here".toList⟩]

/-- Claim C2: adding an already-registered URL WITH `force` does not create
an additional source row.  The force branch calls `getOrCreateSource`, which
itself dedups through `findSourceByUrl` and returns the existing row's id —
contradicting both the claim and the `// Create new source` comment at the
call site: the sources table stays at one row with id 1 and the new chunks
are inserted under that same old id. -/
theorem claim_C2_force_reuses_existing_source :
    stC2.sources.length = 1 ∧
    (addToServer stC2 "http://a.com" docsC2 provOk 100 "now" true false).map
        (fun st' => (st'.sources.length, st'.sources.map SourceRow.id,
          st'.chunks.map ChunkRow.source_id)) =
      some (1, [1], [1, 1]) := by decide

end Docslurp
